import Mathlib

/-!
Shallow embedding of `src/public/script.js` (browser chat widget).

The file has two parts:
* the Text Renderer `parseMarkdown` (escape, emphasis, list-item regexes,
  line walk), embedded over `List Char` with the exact JavaScript regex
  semantics (`.` does not match `\n`; `^`/`$` are line anchors under the
  `m` flag; `\s` matches newlines; global replace scans left to right);
* the Conversation Orchestrator (form submit handler) and the Theme Toggle,
  embedded as pure state-transition functions.
-/

namespace Chatbot

/-! ### JavaScript character classes -/

/-- JavaScript `\s` (WhiteSpace ∪ LineTerminator as used by RegExp and trim). -/
def isWs (c : Char) : Bool :=
  c = ' ' || c = '\t' || c = '\n' || c = '\r' ||
  c = '\x0b' || c = '\x0c' || c = ' ' || c = ' ' ||
  (' ' ≤ c && c ≤ ' ') || c = ' ' || c = ' ' ||
  c = ' ' || c = ' ' || c = '　' || c = '﻿'

/-- JavaScript `\d`. -/
def isDigitCh (c : Char) : Bool :=
  '0' ≤ c && c ≤ '9'

/-! ### Step 1: HTML escaping (`script.js` lines 34-36)

`text.replace(/&/g,"&amp;").replace(/</g,"&lt;").replace(/>/g,"&gt;")`:
three successive global single-character replaces. -/
def replAmp : List Char → List Char
  | [] => []
  | c :: rest => (if c = '&' then "&amp;".data else [c]) ++ replAmp rest

def replLt : List Char → List Char
  | [] => []
  | c :: rest => (if c = '<' then "&lt;".data else [c]) ++ replLt rest

def replGt : List Char → List Char
  | [] => []
  | c :: rest => (if c = '>' then "&gt;".data else [c]) ++ replGt rest

def escapeHtml (l : List Char) : List Char :=
  replGt (replLt (replAmp l))

/-- Single-pass equivalent of the three escape replaces (the replacement
strings contain no character that a later pass rewrites except the `&`
introduced before the `<`/`>` passes run, and `&` is replaced first). -/
def escChunk (c : Char) : List Char :=
  if c = '&' then "&amp;".data
  else if c = '<' then "&lt;".data
  else if c = '>' then "&gt;".data
  else [c]

def escapeOne : List Char → List Char
  | [] => []
  | c :: rest => escChunk c ++ escapeOne rest

/-! ### Step 2: bold, `replace(/\*\*(.*?)\*\*/g, '<strong>$1</strong>')`
(line 39).  `(.*?)` is non-greedy and `.` does not match `\n`. -/

/-- Scan for the closing `**`: returns the (shortest, newline-free) text
before the first `**` together with the text after it. -/
def splitAtDoubleStar : List Char → Option (List Char × List Char)
  | '*' :: '*' :: rest => some ([], rest)
  | '\n' :: _ => none
  | c :: rest => (splitAtDoubleStar rest).map (fun p => (c :: p.1, p.2))
  | [] => none

def replaceBoldF : Nat → List Char → List Char
  | 0, l => l
  | _ + 1, [] => []
  | fuel + 1, '*' :: '*' :: rest =>
    match splitAtDoubleStar rest with
    | some (inner, rest2) =>
      "<strong>".data ++ inner ++ "</strong>".data ++ replaceBoldF fuel rest2
    | none => '*' :: replaceBoldF fuel ('*' :: rest)
  | fuel + 1, c :: rest => c :: replaceBoldF fuel rest

/-- `safeText.replace(/\*\*(.*?)\*\*/g, '<strong>$1</strong>')`. -/
def replaceBold (l : List Char) : List Char := replaceBoldF l.length l

/-! ### Step 3: italic, `replace(/\*(.*?)\*/g, '<em>$1</em>')` (line 42). -/
def splitAtStar : List Char → Option (List Char × List Char)
  | '*' :: rest => some ([], rest)
  | '\n' :: _ => none
  | c :: rest => (splitAtStar rest).map (fun p => (c :: p.1, p.2))
  | [] => none

def replaceItalicF : Nat → List Char → List Char
  | 0, l => l
  | _ + 1, [] => []
  | fuel + 1, '*' :: rest =>
    match splitAtStar rest with
    | some (inner, rest2) =>
      "<em>".data ++ inner ++ "</em>".data ++ replaceItalicF fuel rest2
    | none => '*' :: replaceItalicF fuel rest
  | fuel + 1, c :: rest => c :: replaceItalicF fuel rest

/-- `safeText.replace(/\*(.*?)\*/g, '<em>$1</em>')`. -/
def replaceItalic (l : List Char) : List Char := replaceItalicF l.length l

/-! ### Steps 4-5: list items (lines 46 and 49)

`replace(/^\s*-\s+(.*)$/gm, '<li>$1</li>')` and
`replace(/^\s*\d+\.\s+(.*)$/gm, '<li>$1</li>')`.

With the `m` flag `^` matches at the start of the string or right after a
`\n`; `\s` also matches `\n`, so the leading `\s*` (and the `\s+` after the
marker) may absorb line breaks.  `(.*)` then captures to the end of the
line in which the whitespace run stopped, and `$` is zero-width, so the
closing `\n` is not consumed. -/

/-- Attempted match of `\s*-\s+(.*)$` at a `^` position: returns the
capture and the unconsumed rest. -/
def tryULMatch (l : List Char) : Option (List Char × List Char) :=
  match l.dropWhile isWs with
  | '-' :: r2 =>
    if r2.takeWhile isWs = [] then none
    else some ((r2.dropWhile isWs).takeWhile (· != '\n'),
               (r2.dropWhile isWs).dropWhile (· != '\n'))
  | _ => none

/-- Attempted match of `\s*\d+\.\s+(.*)$` at a `^` position. -/
def tryOLMatch (l : List Char) : Option (List Char × List Char) :=
  if (l.dropWhile isWs).takeWhile isDigitCh = [] then none
  else
    match (l.dropWhile isWs).dropWhile isDigitCh with
    | '.' :: r2 =>
      if r2.takeWhile isWs = [] then none
      else some ((r2.dropWhile isWs).takeWhile (· != '\n'),
                 (r2.dropWhile isWs).dropWhile (· != '\n'))
    | _ => none

def scanULF : Nat → Bool → List Char → List Char
  | 0, _, _ => []
  | _ + 1, _, [] => []
  | fuel + 1, false, c :: rest => c :: scanULF fuel (decide (c = '\n')) rest
  | fuel + 1, true, c :: rest =>
    match tryULMatch (c :: rest) with
    | some (cap, r4) =>
      "<li>".data ++ cap ++ "</li>".data ++ scanULF fuel false r4
    | none => c :: scanULF fuel (decide (c = '\n')) rest

/-- `safeText.replace(/^\s*-\s+(.*)$/gm, '<li>$1</li>')`. -/
def scanUL (b : Bool) (l : List Char) : List Char := scanULF l.length b l

/-- Fuel-graded scan for the global ordered-list replace. -/
def scanOLF : Nat → Bool → List Char → List Char
  | 0, _, _ => []
  | _ + 1, _, [] => []
  | fuel + 1, false, c :: rest => c :: scanOLF fuel (decide (c = '\n')) rest
  | fuel + 1, true, c :: rest =>
    match tryOLMatch (c :: rest) with
    | some (cap, r4) =>
      "<li>".data ++ cap ++ "</li>".data ++ scanOLF fuel false r4
    | none => c :: scanOLF fuel (decide (c = '\n')) rest

/-- `safeText.replace(/^\s*\d+\.\s+(.*)$/gm, '<li>$1</li>')`. -/
def scanOL (b : Bool) (l : List Char) : List Char := scanOLF l.length b l

/-! ### Steps 6-7: the line walk (lines 59-81). -/

/-- `safeText.split('\n')`. -/
def splitOnNl : List Char → List (List Char)
  | [] => [[]]
  | c :: rest =>
    if c = '\n' then [] :: splitOnNl rest
    else
      match splitOnNl rest with
      | [] => [[c]]
      | h :: t => (c :: h) :: t

/-- `line.includes('<li>')`. -/
def containsLi : List Char → Bool
  | '<' :: 'l' :: 'i' :: '>' :: _ => true
  | _ :: rest => containsLi rest
  | [] => false

/-- Truthiness of `line.trim()`. -/
def hasContent (line : List Char) : Bool :=
  line.any (fun c => !(isWs c))

/-- The `lines.forEach` loop plus the trailing `if (inList) html += '</ul>'`. -/
def processLines : List (List Char) → Bool → List Char
  | [], inList => if inList then "</ul>".data else []
  | line :: rest, inList =>
    if containsLi line then
      (if inList then line else "<ul>".data ++ line) ++ processLines rest true
    else
      (if inList then "</ul>".data else []) ++
      (if hasContent line then "<p>".data ++ line ++ "</p>".data else []) ++
      processLines rest false

/-! ### The full Text Renderer `parseMarkdown` (lines 30-84). -/
def mdPipeline (l : List Char) : List Char :=
  processLines
    (splitOnNl (scanOL true (scanUL true (replaceItalic (replaceBold (escapeHtml l))))))
    false

/-- `parseMarkdown`: `if (!text) return ''` then the six transform steps. -/
def parseMarkdown (text : String) : String :=
  if text = "" then "" else ⟨mdPipeline text.data⟩

/-- A single line that carries the spec's unordered list-item marker:
optional whitespace, a hyphen, at least one whitespace character
(spec §4.1 step 4 / the regex `^\s*-\s+`). -/
def hyphenMarkerLine (line : List Char) : Bool :=
  match line.dropWhile isWs with
  | '-' :: r2 => !(r2.takeWhile isWs).isEmpty
  | _ => false

/-- A single line that carries the ordered list-item marker
(spec §4.1 step 5 / the regex `^\s*\d+\.\s+`). -/
def digitMarkerLine (line : List Char) : Bool :=
  if (line.dropWhile isWs).takeWhile isDigitCh = [] then false
  else
    match (line.dropWhile isWs).dropWhile isDigitCh with
    | '.' :: r2 => !(r2.takeWhile isWs).isEmpty
    | _ => false

/-- A hyphen-marker line with visible item text: after the marker's
whitespace there is at least one non-whitespace character. -/
def goodHyphenLine (line : List Char) : Bool :=
  match line.dropWhile isWs with
  | '-' :: r2 => !(r2.takeWhile isWs).isEmpty && !(r2.dropWhile isWs).isEmpty
  | _ => false

/-- A digit-marker line with visible item text. -/
def goodDigitLine (line : List Char) : Bool :=
  if (line.dropWhile isWs).takeWhile isDigitCh = [] then false
  else
    match (line.dropWhile isWs).dropWhile isDigitCh with
    | '.' :: r2 => !(r2.takeWhile isWs).isEmpty && !(r2.dropWhile isWs).isEmpty
    | _ => false

/-- A list-marker line (either kind) with visible item text. -/
def goodMarkerLine (line : List Char) : Bool :=
  goodHyphenLine line || goodDigitLine line

/-! ### Conversation Orchestrator (lines 129-184) and helpers. -/

/-- One `{ role, text }` entry of `conversationHelper`. -/
structure Turn where
  role : String
  text : String
deriving DecidableEq

/-- Content of a chat-box message element: set via `textContent` (plain) or
via `innerHTML` (markup). -/
inductive MsgContent where
  | plain (s : String)
  | markup (s : String)
deriving DecidableEq

/-- A chat-box message element with its role class. -/
structure Msg where
  cls : String
  content : MsgContent
deriving DecidableEq

/-- The page state touched by the submit handler. -/
structure ChatState where
  conversation : List Turn
  display : List Msg
  inputValue : String
  inputDisabled : Bool
  submitDisabled : Bool
  inputFocused : Bool
  /-- Bodies of the `fetch('/api/chat', …)` calls issued so far. -/
  requests : List (List Turn)
deriving DecidableEq

/-- `setFormState` (lines 120-126). -/
def setFormState (disabled : Bool) (st : ChatState) : ChatState :=
  let st1 := { st with inputDisabled := disabled, submitDisabled := disabled }
  if disabled then st1 else { st1 with inputFocused := true }

/-- Replace the content of the last displayed message (the pending
placeholder is always the most recently appended element). -/
def setLastContent : List Msg → MsgContent → List Msg
  | [], _ => []
  | [m], c => [{ m with content := c }]
  | m :: rest, c => m :: setLastContent rest c

/-- Outcome of the awaited `fetch`/`response.json()` pair.
`ok result` models a response with `response.ok` true whose parsed body
has `result` as its `result` field (`none` when absent or not a string);
`notOk` models `response.ok` false; `fail` models a rejected `fetch` or a
`response.json()` failure. -/
inductive FetchOutcome where
  | fail
  | notOk (status : Nat)
  | ok (result : Option String)
deriving DecidableEq

/-- JavaScript truthiness of `data.result` for a string-or-absent field. -/
def truthyResult : Option String → Bool
  | none => false
  | some s => !(s == "")

/-- JavaScript `String.prototype.trim`: strips the `\s` class from both
ends. -/
def jsTrim (s : String) : String :=
  ⟨((s.data.dropWhile isWs).reverse.dropWhile isWs).reverse⟩

/-- The submit handler (lines 129-184) as one state transition, given the
outcome of the network exchange. -/
def submitCycle (st : ChatState) (outcome : FetchOutcome) : ChatState :=
  let text := jsTrim st.inputValue
  if text = "" then st
  else
    -- steps 1-2: user message to UI and history
    let st1 := { st with
      display := st.display ++ [Msg.mk "user-message" (MsgContent.plain text)],
      conversation := st.conversation ++ [Turn.mk "user" text] }
    -- clear input, disable form
    let st2 := setFormState true { st1 with inputValue := "" }
    -- step 3: placeholder; step 4: the request carries the full history
    let st3 := { st2 with
      display := st2.display ++ [Msg.mk "model-message" (MsgContent.plain "Thinking...")],
      requests := st2.requests ++ [st1.conversation] }
    let st4 :=
      match outcome with
      | .fail =>
        { st3 with display :=
            setLastContent st3.display (.plain "Failed to get response from server.") }
      | .notOk _ =>
        { st3 with display :=
            setLastContent st3.display (.plain "Failed to get response from server.") }
      | .ok r =>
        if truthyResult r then
          { st3 with
            display := setLastContent st3.display (.markup (parseMarkdown (r.getD ""))),
            conversation := st3.conversation ++ [Turn.mk "model" (r.getD "")] }
        else
          { st3 with display :=
              setLastContent st3.display (.plain "Sorry, no response received.") }
    -- step 6 (finally): re-enable form
    setFormState false st4

/-! ### Theme Toggle (lines 12-22). -/
structure ThemeState where
  bodyTheme : String
  toggleLabel : String
  stored : Option String
deriving DecidableEq

/-- Page-load initialisation (lines 12-14). -/
def themeInit (saved : Option String) : ThemeState :=
  let savedTheme := saved.getD "light"
  { bodyTheme := savedTheme
    toggleLabel := if savedTheme = "dark" then "☀️" else "🌙"
    stored := saved }

/-- The `themeToggle` click handler (lines 16-22). -/
def themeClick (st : ThemeState) : ThemeState :=
  let currentTheme := st.bodyTheme
  let newTheme := if currentTheme = "light" then "dark" else "light"
  { bodyTheme := newTheme
    toggleLabel := if newTheme = "dark" then "☀️" else "🌙"
    stored := some newTheme }

/-- Sample initial page state with "Hello" typed into the input box. -/
def stHello : ChatState :=
  { conversation := []
    display := []
    inputValue := "Hello"
    inputDisabled := false
    submitDisabled := false
    inputFocused := true
    requests := [] }

/-! ### Claim theorems: orchestrator and theme -/

/-- Joining lines back with newlines (left inverse of `splitOnNl`). -/
def joinNl : List (List Char) → List Char
  | [] => []
  | [x] => x
  | x :: rest => x ++ '\n' :: joinNl rest

/-- `<li>…</li>` wrapping emitted by the two list replaces. -/
def wrapLi (cap : List Char) : List Char :=
  "<li>".data ++ cap ++ "</li>".data

/-- Canonical decomposition of a hyphen list line with visible content:
leading whitespace, the hyphen, at least one whitespace, then content with
a non-whitespace first character; no newline anywhere. -/
def GoodH (x : List Char) : Prop :=
  ∃ w w2 e rest, x = w ++ '-' :: (w2 ++ e :: rest) ∧
    (∀ c ∈ w, isWs c = true) ∧ w2 ≠ [] ∧ (∀ c ∈ w2, isWs c = true) ∧
    isWs e = false ∧ '\n' ∉ x

/-- Canonical decomposition of an ordered list line with visible content. -/
def GoodD (x : List Char) : Prop :=
  ∃ w d ds w2 e rest, x = w ++ (d :: ds) ++ '.' :: (w2 ++ e :: rest) ∧
    (∀ c ∈ w, isWs c = true) ∧ isWs d = false ∧ isDigitCh d = true ∧
    (∀ c ∈ ds, isDigitCh c = true) ∧ w2 ≠ [] ∧ (∀ c ∈ w2, isWs c = true) ∧
    isWs e = false ∧ '\n' ∉ x

/-- Absence of the three non-`\n` ECMAScript LineTerminator characters:
`\r`, U+2028 and U+2029.  The four list/emphasis regexes treat these as
line boundaries too (`.` stops at them and, under the `m` flag, `^` and
`$` match around them) while `split('\n')` does not, so this embedding —
which tracks `\n` as the only terminator — coincides with the regex
passes of lines 39-49 exactly on text satisfying this predicate. -/
def noAltTerm (l : List Char) : Prop :=
  ∀ c ∈ l, c ≠ '\r' ∧ c ≠ '\u2028' ∧ c ≠ '\u2029'

instance (l : List Char) : Decidable (noAltTerm l) := by
  unfold noAltTerm
  infer_instance

/-! ### Safety: decomposition of renderer output into markup tokens -/

/-- The markup fragments `parseMarkdown` itself inserts: the three escape
entities and the generated tags. -/
def markupToks : List (List Char) :=
  ["&amp;".data, "&lt;".data, "&gt;".data,
   "<strong>".data, "</strong>".data, "<em>".data, "</em>".data,
   "<li>".data, "</li>".data, "<ul>".data, "</ul>".data, "<p>".data, "</p>".data]

/-- A token: a markup fragment, or one single character other than the
three escaped ones. -/
def okTok (t : List Char) : Prop :=
  t ∈ markupToks ∨ ∃ c, c ≠ '&' ∧ c ≠ '<' ∧ c ≠ '>' ∧ t = [c]

/-- A string is safe when it is a concatenation of tokens: every `&`, `<`
or `>` it contains then lies inside a generated entity or tag, never as a
loose literal character. -/
def Safe (l : List Char) : Prop :=
  ∃ ts : List (List Char), (∀ t ∈ ts, okTok t) ∧ l = ts.flatten

/-- A character that occurs in no markup fragment; a boundary placed at
such a character can never split a fragment. -/
def benignCut (c : Char) : Prop := ∀ t ∈ markupToks, c ∉ t

/-- A successful scan for the closing `**` decomposes the input. -/
theorem splitAtDoubleStar_eq : ∀ l inner rest2,
    splitAtDoubleStar l = some (inner, rest2) →
    l = inner ++ '*' :: '*' :: rest2 ∧ '\n' ∉ inner := by
  intro l
  induction l using splitAtDoubleStar.induct with
  | case1 rest =>
    intro inner rest2 h
    simp [splitAtDoubleStar] at h
    obtain ⟨h1, h2⟩ := h
    subst h1; subst h2; simp
  | case2 rest =>
    intro inner rest2 h
    simp [splitAtDoubleStar] at h
  | case3 c rest hne hnl ih =>
    intro inner rest2 h
    rw [splitAtDoubleStar.eq_3 c rest hne hnl] at h
    match hsd : splitAtDoubleStar rest, h with
    | some (i', r'), h =>
      simp at h
      obtain ⟨h1, h2⟩ := h
      obtain ⟨hi, hn⟩ := ih i' r' hsd
      subst h2
      refine ⟨by rw [← h1]; simp [hi], ?_⟩
      rw [← h1]
      intro hmem
      rcases List.mem_cons.mp hmem with h | h
      · exact hnl h.symm
      · exact hn h
  | case4 =>
    intro inner rest2 h
    simp [splitAtDoubleStar] at h

theorem splitAtDoubleStar_length {l inner rest2}
    (h : splitAtDoubleStar l = some (inner, rest2)) :
    rest2.length + 2 ≤ l.length := by
  have := (splitAtDoubleStar_eq l inner rest2 h).1
  subst this; simp

/-- Fuel-graded scan for the global non-greedy replace of `**…**` by
`<strong>…</strong>`; one unit of fuel is spent per step, and every step
advances by at least one character, so `l.length` fuel always suffices. -/
theorem splitAtStar_eq : ∀ l inner rest2,
    splitAtStar l = some (inner, rest2) →
    l = inner ++ '*' :: rest2 ∧ '\n' ∉ inner := by
  intro l
  induction l using splitAtStar.induct with
  | case1 rest =>
    intro inner rest2 h
    simp [splitAtStar] at h
    obtain ⟨h1, h2⟩ := h
    subst h1; subst h2; simp
  | case2 rest =>
    intro inner rest2 h
    simp [splitAtStar] at h
  | case3 c rest hne hnl ih =>
    intro inner rest2 h
    rw [splitAtStar.eq_3 c rest hne hnl] at h
    match hsd : splitAtStar rest, h with
    | some (i', r'), h =>
      simp at h
      obtain ⟨h1, h2⟩ := h
      obtain ⟨hi, hn⟩ := ih i' r' hsd
      subst h2
      refine ⟨by rw [← h1]; simp [hi], ?_⟩
      rw [← h1]
      intro hmem
      rcases List.mem_cons.mp hmem with h | h
      · exact hnl h.symm
      · exact hn h
  | case4 =>
    intro inner rest2 h
    simp [splitAtStar] at h

theorem splitAtStar_length {l inner rest2}
    (h : splitAtStar l = some (inner, rest2)) :
    rest2.length + 1 ≤ l.length := by
  have := (splitAtStar_eq l inner rest2 h).1
  subst this; simp

/-- Fuel-graded scan for the global non-greedy replace of `*…*` by
`<em>…</em>`. -/
theorem dropWhile_length_le (p : Char → Bool) (l : List Char) :
    (l.dropWhile p).length ≤ l.length := by
  induction l with
  | nil => simp
  | cons c rest ih =>
    by_cases h : p c
    · simp [List.dropWhile_cons_of_pos h]; omega
    · simp [List.dropWhile_cons_of_neg h]

/-- Structure of a successful unordered-list match:
`l = \s*-` followed by `r2` whose own leading whitespace is the `\s+`,
the capture is the rest of `r2` up to the next newline. -/
theorem tryULMatch_some {l cap r4}
    (h : tryULMatch l = some (cap, r4)) :
    ∃ r2, l = l.takeWhile isWs ++ '-' :: r2 ∧
      r2.takeWhile isWs ≠ [] ∧
      cap = (r2.dropWhile isWs).takeWhile (· != '\n') ∧
      r4 = (r2.dropWhile isWs).dropWhile (· != '\n') := by
  unfold tryULMatch at h
  split at h
  · rename_i r2 heq
    split at h
    · cases h
    · rename_i hw
      simp only [Option.some.injEq, Prod.mk.injEq] at h
      refine ⟨r2, ?_, hw, h.1.symm, h.2.symm⟩
      conv_lhs => rw [← List.takeWhile_append_dropWhile isWs l]
      rw [heq]
  · cases h

theorem tryULMatch_length {l cap r4}
    (h : tryULMatch l = some (cap, r4)) :
    r4.length + 2 ≤ l.length := by
  obtain ⟨r2, hl, hw, _, hr4⟩ := tryULMatch_some h
  cases r2 with
  | nil => simp at hw
  | cons c r2' =>
    by_cases hc : isWs c
    · have h5 := dropWhile_length_le (· != '\n') (r2'.dropWhile isWs)
      have h6 := dropWhile_length_le isWs r2'
      rw [hl, hr4, List.dropWhile_cons_of_pos hc]
      simp only [List.length_append, List.length_cons]
      omega
    · simp [List.takeWhile_cons_of_neg hc] at hw

/-- Structure of a successful ordered-list match. -/
theorem tryOLMatch_some {l cap r4}
    (h : tryOLMatch l = some (cap, r4)) :
    ∃ r2, l = l.takeWhile isWs ++ (l.dropWhile isWs).takeWhile isDigitCh ++ '.' :: r2 ∧
      (l.dropWhile isWs).takeWhile isDigitCh ≠ [] ∧
      r2.takeWhile isWs ≠ [] ∧
      cap = (r2.dropWhile isWs).takeWhile (· != '\n') ∧
      r4 = (r2.dropWhile isWs).dropWhile (· != '\n') := by
  unfold tryOLMatch at h
  split at h
  · cases h
  · rename_i hd
    split at h
    · rename_i r2 heq
      split at h
      · cases h
      · rename_i hw
        simp only [Option.some.injEq, Prod.mk.injEq] at h
        refine ⟨r2, ?_, hd, hw, h.1.symm, h.2.symm⟩
        rw [List.append_assoc]
        conv_lhs => rw [← List.takeWhile_append_dropWhile isWs l]
        congr 1
        conv_lhs => rw [← List.takeWhile_append_dropWhile isDigitCh (l.dropWhile isWs)]
        rw [heq]
    · cases h

theorem tryOLMatch_length {l cap r4}
    (h : tryOLMatch l = some (cap, r4)) :
    r4.length + 2 ≤ l.length := by
  obtain ⟨r2, hl, hd, hw, _, hr4⟩ := tryOLMatch_some h
  cases r2 with
  | nil => simp at hw
  | cons c r2' =>
    by_cases hc : isWs c
    · have h5 := dropWhile_length_le (· != '\n') (r2'.dropWhile isWs)
      have h6 := dropWhile_length_le isWs r2'
      have h2 : 1 ≤ ((l.dropWhile isWs).takeWhile isDigitCh).length := by
        cases hdig : (l.dropWhile isWs).takeWhile isDigitCh with
        | nil => exact absurd hdig hd
        | cons d r => simp
      rw [hl, hr4, List.dropWhile_cons_of_pos hc]
      simp only [List.length_append, List.length_cons]
      omega
    · simp [List.takeWhile_cons_of_neg hc] at hw

/-- Fuel-graded scan for the global unordered-list replace.  The flag
records whether the current position is a `^` position (start of string or
just after a `\n`). -/
theorem setLastContent_append :
    ∀ (a : List Msg) (m : Msg) (c : MsgContent),
      setLastContent (a ++ [m]) c = a ++ [{ m with content := c }]
  | [], m, c => rfl
  | [x], m, c => rfl
  | x :: y :: a, m, c => by
    have ih := setLastContent_append (y :: a) m c
    simp only [List.cons_append] at ih ⊢
    rw [show setLastContent (x :: y :: (a ++ [m])) c
          = x :: setLastContent (y :: (a ++ [m])) c from rfl, ih]

/-- Claim C7: a submission whose input trims to the empty string is a
silent no-op: the whole page state (conversation store, display, request
log, control state) is left unchanged. -/
theorem c7_empty_input_noop (st : ChatState) (outcome : FetchOutcome)
    (h : jsTrim st.inputValue = "") : submitCycle st outcome = st := by
  unfold submitCycle
  rw [if_pos h]

/-- Witness for C7 at a whitespace-only input. -/
theorem c7_empty_input_noop_witness :
    jsTrim "  " = "" ∧
    submitCycle { stHello with inputValue := "  " } FetchOutcome.fail
      = { stHello with inputValue := "  " } :=
  ⟨by decide, c7_empty_input_noop _ _ (by decide)⟩

/-- Claim C8: for every submission with non-whitespace input, whatever the
outcome (success with result, success without result, transport failure,
non-success status), the controls are re-enabled and focus returns to the
input box. -/
theorem c8_controls_reenabled (st : ChatState) (outcome : FetchOutcome)
    (h : jsTrim st.inputValue ≠ "") :
    (submitCycle st outcome).inputDisabled = false ∧
    (submitCycle st outcome).submitDisabled = false ∧
    (submitCycle st outcome).inputFocused = true := by
  unfold submitCycle setFormState
  rw [if_neg h]
  cases outcome with
  | fail => simp
  | notOk n => simp
  | ok r => by_cases hr : truthyResult r <;> simp [hr]

/-- Witness for C8 on a failing outcome. -/
theorem c8_controls_reenabled_witness :
    jsTrim "Hello" ≠ "" ∧
    ((submitCycle stHello FetchOutcome.fail).inputDisabled = false ∧
     (submitCycle stHello FetchOutcome.fail).submitDisabled = false ∧
     (submitCycle stHello FetchOutcome.fail).inputFocused = true) :=
  ⟨by decide, c8_controls_reenabled stHello FetchOutcome.fail (by decide)⟩

/-- Claim C4: on a transport failure or a non-success HTTP status the
placeholder is replaced by the fixed failure message, no model turn is
appended (the store gains exactly the user turn), and the controls are
re-enabled. -/
theorem c4_failure_path (st : ChatState) (outcome : FetchOutcome)
    (h : jsTrim st.inputValue ≠ "")
    (hout : outcome = FetchOutcome.fail ∨ ∃ n, outcome = FetchOutcome.notOk n) :
    (submitCycle st outcome).conversation
      = st.conversation ++ [Turn.mk "user" (jsTrim st.inputValue)] ∧
    (submitCycle st outcome).display
      = st.display ++
        [Msg.mk "user-message" (MsgContent.plain (jsTrim st.inputValue)),
         Msg.mk "model-message" (MsgContent.plain "Failed to get response from server.")] ∧
    (submitCycle st outcome).inputDisabled = false ∧
    (submitCycle st outcome).submitDisabled = false := by
  have hdisp : ∀ c, setLastContent
      (st.display ++ [Msg.mk "user-message" (MsgContent.plain (jsTrim st.inputValue)),
                      Msg.mk "model-message" (MsgContent.plain "Thinking...")]) c
      = st.display ++ [Msg.mk "user-message" (MsgContent.plain (jsTrim st.inputValue)),
                       Msg.mk "model-message" c] := by
    intro c
    rw [show st.display ++ [Msg.mk "user-message" (MsgContent.plain (jsTrim st.inputValue)),
          Msg.mk "model-message" (MsgContent.plain "Thinking...")]
        = (st.display ++ [Msg.mk "user-message" (MsgContent.plain (jsTrim st.inputValue))])
          ++ [Msg.mk "model-message" (MsgContent.plain "Thinking...")] by simp,
        setLastContent_append]
    simp
  rcases hout with h1 | ⟨n, h1⟩ <;> subst h1 <;>
    · unfold submitCycle setFormState
      rw [if_neg h]
      simp only []
      refine ⟨by simp, ?_, by simp, by simp⟩
      simpa using hdisp (MsgContent.plain "Failed to get response from server.")

/-- Witness for C4 on a 500 status. -/
theorem c4_failure_path_witness :
    jsTrim "Hello" ≠ "" ∧
    ((submitCycle stHello (FetchOutcome.notOk 500)).conversation
       = stHello.conversation ++ [Turn.mk "user" (jsTrim "Hello")] ∧
     (submitCycle stHello (FetchOutcome.notOk 500)).display
       = stHello.display ++
         [Msg.mk "user-message" (MsgContent.plain (jsTrim "Hello")),
          Msg.mk "model-message" (MsgContent.plain "Failed to get response from server.")] ∧
     (submitCycle stHello (FetchOutcome.notOk 500)).inputDisabled = false ∧
     (submitCycle stHello (FetchOutcome.notOk 500)).submitDisabled = false) :=
  ⟨by decide, c4_failure_path stHello (FetchOutcome.notOk 500) (by decide)
    (Or.inr ⟨500, rfl⟩)⟩

/-- Claim C2, counterexample: a success response whose `result` field is
the empty string (a string!) does NOT replace the placeholder with the
rendered result and does NOT append a model turn — JavaScript truthiness
of `data.result` treats `""` as absent, so the "no response" branch runs. -/
theorem c2_empty_result_counterexample :
    (submitCycle stHello (FetchOutcome.ok (some ""))).conversation
      = [Turn.mk "user" "Hello"] ∧
    (submitCycle stHello (FetchOutcome.ok (some ""))).display.getLast?
      = some (Msg.mk "model-message" (MsgContent.plain "Sorry, no response received.")) ∧
    (submitCycle stHello (FetchOutcome.ok (some ""))).display.getLast?
      ≠ some (Msg.mk "model-message" (MsgContent.markup (parseMarkdown ""))) := by
  decide

/-- Claim C2 (amended: the `result` string must additionally be non-empty,
because the code tests JavaScript truthiness of `data.result`): on success
with a non-empty string result, the placeholder is replaced by
`parseMarkdown result` and a model turn is appended to the store. -/
theorem c2_success_appends_model (st : ChatState) (r : String)
    (h : jsTrim st.inputValue ≠ "") (hr : r ≠ "") :
    (submitCycle st (FetchOutcome.ok (some r))).conversation
      = st.conversation ++ [Turn.mk "user" (jsTrim st.inputValue), Turn.mk "model" r] ∧
    (submitCycle st (FetchOutcome.ok (some r))).display
      = st.display ++
        [Msg.mk "user-message" (MsgContent.plain (jsTrim st.inputValue)),
         Msg.mk "model-message" (MsgContent.markup (parseMarkdown r))] := by
  have htr : truthyResult (some r) = true := by
    simp [truthyResult, hr]
  have hdisp : ∀ c, setLastContent
      (st.display ++ [Msg.mk "user-message" (MsgContent.plain (jsTrim st.inputValue)),
                      Msg.mk "model-message" (MsgContent.plain "Thinking...")]) c
      = st.display ++ [Msg.mk "user-message" (MsgContent.plain (jsTrim st.inputValue)),
                       Msg.mk "model-message" c] := by
    intro c
    rw [show st.display ++ [Msg.mk "user-message" (MsgContent.plain (jsTrim st.inputValue)),
          Msg.mk "model-message" (MsgContent.plain "Thinking...")]
        = (st.display ++ [Msg.mk "user-message" (MsgContent.plain (jsTrim st.inputValue))])
          ++ [Msg.mk "model-message" (MsgContent.plain "Thinking...")] by simp,
        setLastContent_append]
    simp
  unfold submitCycle setFormState
  rw [if_neg h]
  simp only [htr, if_pos]
  refine ⟨by simp, ?_⟩
  simpa using hdisp (MsgContent.markup (parseMarkdown r))

/-- Witness for the amended C2 on the spec's own end-to-end example. -/
theorem c2_success_appends_model_witness :
    jsTrim "Hello" ≠ "" ∧ ("**Hi**" : String) ≠ "" ∧
    ((submitCycle stHello (FetchOutcome.ok (some "**Hi**"))).conversation
       = stHello.conversation ++ [Turn.mk "user" (jsTrim "Hello"), Turn.mk "model" "**Hi**"] ∧
     (submitCycle stHello (FetchOutcome.ok (some "**Hi**"))).display
       = stHello.display ++
         [Msg.mk "user-message" (MsgContent.plain (jsTrim "Hello")),
          Msg.mk "model-message" (MsgContent.markup (parseMarkdown "**Hi**"))]) :=
  ⟨by decide, by decide, c2_success_appends_model stHello "**Hi**" (by decide) (by decide)⟩

/-- Claim C3, counterexample: after one failed cycle from the empty page,
the display holds two messages (user turn plus the failure placeholder)
while the store holds one turn, so display and store are NOT equal in
length at the end of every completed cycle. -/
theorem c3_failed_cycle_length_counterexample :
    (submitCycle stHello FetchOutcome.fail).display.length = 2 ∧
    (submitCycle stHello FetchOutcome.fail).conversation.length = 1 ∧
    (submitCycle stHello FetchOutcome.fail).display.length
      ≠ (submitCycle stHello FetchOutcome.fail).conversation.length := by
  decide

/-- Claim C3 (amended): a success cycle with a non-empty result grows both
display and store by two, preserving equal length; a failed cycle still
appends the user turn and no model turn, but the displayed failure
placeholder makes the display grow by two while the store grows by one. -/
theorem c3_sync_amended :
    (∀ (st : ChatState) (r : String), jsTrim st.inputValue ≠ "" → r ≠ "" →
      (submitCycle st (FetchOutcome.ok (some r))).display.length
        = st.display.length + 2 ∧
      (submitCycle st (FetchOutcome.ok (some r))).conversation.length
        = st.conversation.length + 2) ∧
    (∀ st : ChatState, jsTrim st.inputValue ≠ "" →
      (submitCycle st FetchOutcome.fail).display.length = st.display.length + 2 ∧
      (submitCycle st FetchOutcome.fail).conversation.length
        = st.conversation.length + 1) := by
  constructor
  · intro st r h hr
    obtain ⟨hc, hd⟩ := c2_success_appends_model st r h hr
    rw [hc, hd]
    simp
  · intro st h
    obtain ⟨hc, hd, _, _⟩ := c4_failure_path st FetchOutcome.fail h (Or.inl rfl)
    rw [hc, hd]
    simp

/-- Witness for the amended C3. -/
theorem c3_sync_amended_witness :
    ((submitCycle stHello (FetchOutcome.ok (some "**Hi**"))).display.length
       = stHello.display.length + 2 ∧
     (submitCycle stHello (FetchOutcome.ok (some "**Hi**"))).conversation.length
       = stHello.conversation.length + 2) ∧
    ((submitCycle stHello FetchOutcome.fail).display.length
       = stHello.display.length + 2 ∧
     (submitCycle stHello FetchOutcome.fail).conversation.length
       = stHello.conversation.length + 1) :=
  ⟨c3_sync_amended.1 stHello "**Hi**" (by decide) (by decide),
   c3_sync_amended.2 stHello (by decide)⟩

/-- Claim C9: from a state whose displayed theme is one of the two values
and whose persisted entry and toggle label agree with it, a single click
flips the displayed value and writes the flipped value to the store, and a
second click restores the whole theme state. -/
theorem c9_theme_involution (st : ThemeState)
    (hv : st.bodyTheme = "light" ∨ st.bodyTheme = "dark")
    (hs : st.stored = some st.bodyTheme)
    (hl : st.toggleLabel = if st.bodyTheme = "dark" then "☀️" else "🌙") :
    themeClick (themeClick st) = st ∧
    (themeClick st).bodyTheme
      = (if st.bodyTheme = "light" then "dark" else "light") ∧
    (themeClick st).stored
      = some (if st.bodyTheme = "light" then "dark" else "light") := by
  obtain ⟨bt, tl, sd⟩ := st
  simp only at hv hs hl ⊢
  rcases hv with h | h <;> subst h <;> rw [hs, hl] <;>
    simp [themeClick]

/-- Witness for C9 starting from the persisted dark theme. -/
theorem c9_theme_involution_witness :
    (themeClick (themeClick (themeInit (some "dark"))) = themeInit (some "dark") ∧
     (themeClick (themeInit (some "dark"))).bodyTheme
       = (if (themeInit (some "dark")).bodyTheme = "light" then "dark" else "light") ∧
     (themeClick (themeInit (some "dark"))).stored
       = some (if (themeInit (some "dark")).bodyTheme = "light" then "dark" else "light")) :=
  c9_theme_involution (themeInit (some "dark")) (by decide) (by decide) (by decide)

/-- Claim C6: emphasis is non-greedy and double-asterisk runs before
single-asterisk: `**bold**` renders with one strong wrapping around
`bold`, and `*a* and *b*` renders with two independent emphasis spans,
not one span from the first to the last asterisk. -/
theorem c6_emphasis :
    parseMarkdown "**bold**" = "<p><strong>bold</strong></p>" ∧
    parseMarkdown "*a* and *b*" = "<p><em>a</em> and <em>b</em></p>" := by
  decide

/-- Claim C10, counterexample: a blank line between two list-marker lines
does NOT produce two separate list groupings — the list-item regex's
leading `\s*` (run before the line walk, with `\s` matching `\n`)
absorbs the blank line into the second match, so the walk sees two
consecutive `<li>` lines and emits a single grouping. -/
theorem c10_blank_line_counterexample :
    parseMarkdown "- a\n\n- b" = "<ul><li>a</li><li>b</li></ul>" ∧
    parseMarkdown "- a\n\n- b" ≠ "<ul><li>a</li></ul><ul><li>b</li></ul>" := by
  decide

/-- Claim C10 (amended): the blank line between two list lines is absorbed
by the following list-item match, so `"- a\n\n- b"` yields one single
grouping with both items; a blank line followed by a non-list line does
terminate the grouping (the walk closes it and emits nothing for the blank
line). -/
theorem c10_blank_line_absorbed :
    parseMarkdown "- a\n\n- b" = "<ul><li>a</li><li>b</li></ul>" ∧
    parseMarkdown "- a\n\nx" = "<ul><li>a</li></ul><p>x</p>" := by
  decide

/-- Claim C5, counterexample: in `"- \n- b"` both lines carry the spec's
list-item marker (optional whitespace, hyphen, at least one whitespace),
yet the output contains a single list item for the two lines: the first
line has no item text, so the `\s+` after its hyphen absorbs the line
break and the second line becomes part of the first match's capture. -/
theorem c5_blank_item_counterexample :
    (∀ line ∈ splitOnNl "- \n- b".data, hyphenMarkerLine line = true) ∧
    (splitOnNl "- \n- b".data).length = 2 ∧
    parseMarkdown "- \n- b" = "<ul><li>- b</li></ul>" := by
  decide

/-! ### Unfolding and fuel-irrelevance lemmas for the fuel-graded scans -/

theorem scanULF_zero (b : Bool) (l : List Char) : scanULF 0 b l = [] := rfl

theorem scanULF_nil (f : Nat) (b : Bool) : scanULF (f + 1) b [] = [] := by
  cases b <;> rfl

theorem scanULF_false (f : Nat) (c : Char) (rest : List Char) :
    scanULF (f + 1) false (c :: rest) = c :: scanULF f (decide (c = '\n')) rest := rfl

theorem scanULF_true (f : Nat) (c : Char) (rest : List Char) :
    scanULF (f + 1) true (c :: rest) =
      match tryULMatch (c :: rest) with
      | some (cap, r4) => "<li>".data ++ cap ++ "</li>".data ++ scanULF f false r4
      | none => c :: scanULF f (decide (c = '\n')) rest := rfl

theorem scanULF_true_some {c : Char} {rest cap r4 : List Char} (f : Nat)
    (h : tryULMatch (c :: rest) = some (cap, r4)) :
    scanULF (f + 1) true (c :: rest) =
      "<li>".data ++ cap ++ "</li>".data ++ scanULF f false r4 := by
  rw [scanULF_true, h]

theorem scanULF_true_none {c : Char} {rest : List Char} (f : Nat)
    (h : tryULMatch (c :: rest) = none) :
    scanULF (f + 1) true (c :: rest) = c :: scanULF f (decide (c = '\n')) rest := by
  rw [scanULF_true, h]

theorem scanOLF_zero (b : Bool) (l : List Char) : scanOLF 0 b l = [] := rfl

theorem scanOLF_nil (f : Nat) (b : Bool) : scanOLF (f + 1) b [] = [] := by
  cases b <;> rfl

theorem scanOLF_false (f : Nat) (c : Char) (rest : List Char) :
    scanOLF (f + 1) false (c :: rest) = c :: scanOLF f (decide (c = '\n')) rest := rfl

theorem scanOLF_true (f : Nat) (c : Char) (rest : List Char) :
    scanOLF (f + 1) true (c :: rest) =
      match tryOLMatch (c :: rest) with
      | some (cap, r4) => "<li>".data ++ cap ++ "</li>".data ++ scanOLF f false r4
      | none => c :: scanOLF f (decide (c = '\n')) rest := rfl

theorem scanOLF_true_some {c : Char} {rest cap r4 : List Char} (f : Nat)
    (h : tryOLMatch (c :: rest) = some (cap, r4)) :
    scanOLF (f + 1) true (c :: rest) =
      "<li>".data ++ cap ++ "</li>".data ++ scanOLF f false r4 := by
  rw [scanOLF_true, h]

theorem scanOLF_true_none {c : Char} {rest : List Char} (f : Nat)
    (h : tryOLMatch (c :: rest) = none) :
    scanOLF (f + 1) true (c :: rest) = c :: scanOLF f (decide (c = '\n')) rest := by
  rw [scanOLF_true, h]

theorem replaceBoldF_congr : ∀ f1 f2 l, l.length ≤ f1 → l.length ≤ f2 →
    replaceBoldF f1 l = replaceBoldF f2 l := by
  intro f1
  induction f1 with
  | zero =>
    intro f2 l h1 _
    have : l = [] := List.length_eq_zero.mp (Nat.le_zero.mp h1)
    subst this
    cases f2 <;> rfl
  | succ f1 ih =>
    intro f2 l h1 h2
    match l, h1, h2 with
    | [], _, _ => cases f2 <;> rfl
    | c :: rest, h1, h2 =>
      match f2, h2 with
      | g + 1, h2 =>
        by_cases hss : ∃ rest', c = '*' ∧ rest = '*' :: rest'
        · obtain ⟨rest', hc, hr⟩ := hss
          subst hc; subst hr
          rw [replaceBoldF.eq_3, replaceBoldF.eq_3]
          cases hs : splitAtDoubleStar rest' with
          | some p =>
            obtain ⟨inner, rest2⟩ := p
            have hlen := splitAtDoubleStar_length hs
            simp only []
            rw [ih g rest2 ?_ ?_]
            · simp at h1; omega
            · simp at h2; omega
          | none =>
            simp only []
            rw [ih g ('*' :: rest') ?_ ?_]
            · simp at h1 ⊢; omega
            · simp at h2 ⊢; omega
        · have hcond : ∀ rest_1 : List Char, c = '*' → rest = '*' :: rest_1 → False :=
            fun r hc hr => hss ⟨r, hc, hr⟩
          rw [replaceBoldF.eq_4 _ _ _ hcond, replaceBoldF.eq_4 _ _ _ hcond]
          rw [ih g rest ?_ ?_]
          · simp at h1; omega
          · simp at h2; omega

theorem replaceItalicF_congr : ∀ f1 f2 l, l.length ≤ f1 → l.length ≤ f2 →
    replaceItalicF f1 l = replaceItalicF f2 l := by
  intro f1
  induction f1 with
  | zero =>
    intro f2 l h1 _
    have : l = [] := List.length_eq_zero.mp (Nat.le_zero.mp h1)
    subst this
    cases f2 <;> rfl
  | succ f1 ih =>
    intro f2 l h1 h2
    match l, h1, h2 with
    | [], _, _ => cases f2 <;> rfl
    | c :: rest, h1, h2 =>
      match f2, h2 with
      | g + 1, h2 =>
        by_cases hc : c = '*'
        · subst hc
          rw [replaceItalicF.eq_3, replaceItalicF.eq_3]
          cases hs : splitAtStar rest with
          | some p =>
            obtain ⟨inner, rest2⟩ := p
            have hlen := splitAtStar_length hs
            simp only []
            rw [ih g rest2 ?_ ?_]
            · simp at h1; omega
            · simp at h2; omega
          | none =>
            simp only []
            rw [ih g rest ?_ ?_]
            · simp at h1; omega
            · simp at h2; omega
        · rw [replaceItalicF.eq_4 _ _ _ hc, replaceItalicF.eq_4 _ _ _ hc]
          rw [ih g rest ?_ ?_]
          · simp at h1; omega
          · simp at h2; omega

theorem scanULF_congr : ∀ f1 f2 b l, l.length ≤ f1 → l.length ≤ f2 →
    scanULF f1 b l = scanULF f2 b l := by
  intro f1
  induction f1 with
  | zero =>
    intro f2 b l h1 _
    have : l = [] := List.length_eq_zero.mp (Nat.le_zero.mp h1)
    subst this
    rw [scanULF_zero]
    cases f2 with
    | zero => rfl
    | succ g => rw [scanULF_nil]
  | succ f1 ih =>
    intro f2 b l h1 h2
    match l, h1, h2 with
    | [], _, _ =>
      rw [scanULF_nil]
      cases f2 with
      | zero => rfl
      | succ g => rw [scanULF_nil]
    | c :: rest, h1, h2 =>
      match f2, h2 with
      | g + 1, h2 =>
        cases b with
        | false =>
          rw [scanULF_false, scanULF_false]
          rw [ih g _ rest ?_ ?_]
          · simp at h1; omega
          · simp at h2; omega
        | true =>
          cases ht : tryULMatch (c :: rest) with
          | some p =>
            obtain ⟨cap, r4⟩ := p
            have hlen := tryULMatch_length ht
            rw [scanULF_true_some f1 ht, scanULF_true_some g ht]
            rw [ih g _ r4 ?_ ?_]
            · simp at h1 hlen; omega
            · simp at h2 hlen; omega
          | none =>
            rw [scanULF_true_none f1 ht, scanULF_true_none g ht]
            rw [ih g _ rest ?_ ?_]
            · simp at h1; omega
            · simp at h2; omega

theorem scanOLF_congr : ∀ f1 f2 b l, l.length ≤ f1 → l.length ≤ f2 →
    scanOLF f1 b l = scanOLF f2 b l := by
  intro f1
  induction f1 with
  | zero =>
    intro f2 b l h1 _
    have : l = [] := List.length_eq_zero.mp (Nat.le_zero.mp h1)
    subst this
    rw [scanOLF_zero]
    cases f2 with
    | zero => rfl
    | succ g => rw [scanOLF_nil]
  | succ f1 ih =>
    intro f2 b l h1 h2
    match l, h1, h2 with
    | [], _, _ =>
      rw [scanOLF_nil]
      cases f2 with
      | zero => rfl
      | succ g => rw [scanOLF_nil]
    | c :: rest, h1, h2 =>
      match f2, h2 with
      | g + 1, h2 =>
        cases b with
        | false =>
          rw [scanOLF_false, scanOLF_false]
          rw [ih g _ rest ?_ ?_]
          · simp at h1; omega
          · simp at h2; omega
        | true =>
          cases ht : tryOLMatch (c :: rest) with
          | some p =>
            obtain ⟨cap, r4⟩ := p
            have hlen := tryOLMatch_length ht
            rw [scanOLF_true_some f1 ht, scanOLF_true_some g ht]
            rw [ih g _ r4 ?_ ?_]
            · simp at h1 hlen; omega
            · simp at h2 hlen; omega
          | none =>
            rw [scanOLF_true_none f1 ht, scanOLF_true_none g ht]
            rw [ih g _ rest ?_ ?_]
            · simp at h1; omega
            · simp at h2; omega

/-! ### Step lemmas for the wrapper functions -/

theorem replaceBold_nil : replaceBold [] = [] := rfl

theorem replaceBold_cons_ne {c : Char} (rest : List Char) (h : c ≠ '*') :
    replaceBold (c :: rest) = c :: replaceBold rest := by
  unfold replaceBold
  have hcond : ∀ r : List Char, c = '*' → rest = '*' :: r → False :=
    fun r hc _ => h hc
  rw [show (c :: rest).length = rest.length + 1 from rfl,
      replaceBoldF.eq_4 _ _ _ hcond]

theorem replaceBold_ss_some {rest inner rest2 : List Char}
    (h : splitAtDoubleStar rest = some (inner, rest2)) :
    replaceBold ('*' :: '*' :: rest)
      = "<strong>".data ++ inner ++ "</strong>".data ++ replaceBold rest2 := by
  unfold replaceBold
  rw [show ('*' :: '*' :: rest).length = rest.length + 1 + 1 from rfl,
      replaceBoldF.eq_3, h]
  have hlen := splitAtDoubleStar_length h
  simp only []
  rw [replaceBoldF_congr (rest.length + 1) rest2.length rest2 (by omega) (by omega)]

theorem replaceBold_ss_none {rest : List Char}
    (h : splitAtDoubleStar rest = none) :
    replaceBold ('*' :: '*' :: rest) = '*' :: replaceBold ('*' :: rest) := by
  unfold replaceBold
  rw [show ('*' :: '*' :: rest).length = rest.length + 1 + 1 from rfl,
      replaceBoldF.eq_3, h]
  simp only [List.length_cons]

theorem replaceBold_star_cons_ne {d : Char} (rest : List Char) (h : d ≠ '*') :
    replaceBold ('*' :: d :: rest) = '*' :: replaceBold (d :: rest) := by
  unfold replaceBold
  have hcond : ∀ r : List Char, '*' = '*' → d :: rest = '*' :: r → False := by
    intro r _ hr
    exact h (List.cons.injEq _ _ _ _ ▸ hr).1
  rw [show ('*' :: d :: rest).length = (d :: rest).length + 1 from rfl,
      replaceBoldF.eq_4 _ _ _ hcond]

theorem replaceBold_star_one : replaceBold ['*'] = ['*'] := by
  unfold replaceBold
  have hcond : ∀ r : List Char, '*' = '*' → ([] : List Char) = '*' :: r → False := by
    intro r _ hr; cases hr
  rw [show (['*'] : List Char).length = ([] : List Char).length + 1 from rfl,
      replaceBoldF.eq_4 _ _ _ hcond]
  rfl

theorem replaceItalic_nil : replaceItalic [] = [] := rfl

theorem replaceItalic_cons_ne {c : Char} (rest : List Char) (h : c ≠ '*') :
    replaceItalic (c :: rest) = c :: replaceItalic rest := by
  unfold replaceItalic
  rw [show (c :: rest).length = rest.length + 1 from rfl,
      replaceItalicF.eq_4 _ _ _ h]

theorem replaceItalic_star_some {rest inner rest2 : List Char}
    (h : splitAtStar rest = some (inner, rest2)) :
    replaceItalic ('*' :: rest)
      = "<em>".data ++ inner ++ "</em>".data ++ replaceItalic rest2 := by
  unfold replaceItalic
  rw [show ('*' :: rest).length = rest.length + 1 from rfl,
      replaceItalicF.eq_3, h]
  have hlen := splitAtStar_length h
  simp only []
  rw [replaceItalicF_congr rest.length rest2.length rest2 (by omega) (by omega)]

theorem replaceItalic_star_none {rest : List Char}
    (h : splitAtStar rest = none) :
    replaceItalic ('*' :: rest) = '*' :: replaceItalic rest := by
  unfold replaceItalic
  rw [show ('*' :: rest).length = rest.length + 1 from rfl,
      replaceItalicF.eq_3, h]

theorem scanUL_nil (b : Bool) : scanUL b [] = [] := by
  cases b <;> rfl

theorem scanUL_false_cons (c : Char) (rest : List Char) :
    scanUL false (c :: rest) = c :: scanUL (decide (c = '\n')) rest := rfl

theorem scanUL_true_some {c : Char} {rest cap r4 : List Char}
    (h : tryULMatch (c :: rest) = some (cap, r4)) :
    scanUL true (c :: rest)
      = "<li>".data ++ cap ++ "</li>".data ++ scanUL false r4 := by
  unfold scanUL
  rw [show (c :: rest).length = rest.length + 1 from rfl, scanULF_true_some _ h]
  have hlen := tryULMatch_length h
  simp only [List.length_cons] at hlen
  rw [scanULF_congr rest.length r4.length false r4 (by omega) (by omega)]

theorem scanUL_true_none {c : Char} {rest : List Char}
    (h : tryULMatch (c :: rest) = none) :
    scanUL true (c :: rest) = c :: scanUL (decide (c = '\n')) rest := by
  unfold scanUL
  rw [show (c :: rest).length = rest.length + 1 from rfl, scanULF_true_none _ h]

theorem scanOL_nil (b : Bool) : scanOL b [] = [] := by
  cases b <;> rfl

theorem scanOL_false_cons (c : Char) (rest : List Char) :
    scanOL false (c :: rest) = c :: scanOL (decide (c = '\n')) rest := rfl

theorem scanOL_true_some {c : Char} {rest cap r4 : List Char}
    (h : tryOLMatch (c :: rest) = some (cap, r4)) :
    scanOL true (c :: rest)
      = "<li>".data ++ cap ++ "</li>".data ++ scanOL false r4 := by
  unfold scanOL
  rw [show (c :: rest).length = rest.length + 1 from rfl, scanOLF_true_some _ h]
  have hlen := tryOLMatch_length h
  simp only [List.length_cons] at hlen
  rw [scanOLF_congr rest.length r4.length false r4 (by omega) (by omega)]

theorem scanOL_true_none {c : Char} {rest : List Char}
    (h : tryOLMatch (c :: rest) = none) :
    scanOL true (c :: rest) = c :: scanOL (decide (c = '\n')) rest := by
  unfold scanOL
  rw [show (c :: rest).length = rest.length + 1 from rfl, scanOLF_true_none _ h]

/-! ### Core lemmas about `Safe` -/

theorem Safe_nil : Safe [] := ⟨[], by simp, rfl⟩

theorem Safe_append {a b : List Char} (ha : Safe a) (hb : Safe b) :
    Safe (a ++ b) := by
  obtain ⟨ts1, h1, e1⟩ := ha
  obtain ⟨ts2, h2, e2⟩ := hb
  refine ⟨ts1 ++ ts2, ?_, by rw [e1, e2, List.flatten_append]⟩
  intro t ht
  rcases List.mem_append.mp ht with h | h
  · exact h1 t h
  · exact h2 t h

theorem Safe_tok {t r : List Char} (ht : okTok t) (hr : Safe r) :
    Safe (t ++ r) := by
  obtain ⟨ts, hts, e⟩ := hr
  refine ⟨t :: ts, ?_, by rw [e]; rfl⟩
  intro x hx
  rcases List.mem_cons.mp hx with h | h
  · subst h; exact ht
  · exact hts x h

theorem Safe_char {c : Char} {r : List Char}
    (h1 : c ≠ '&') (h2 : c ≠ '<') (h3 : c ≠ '>') (hr : Safe r) :
    Safe (c :: r) :=
  Safe_tok (Or.inr ⟨c, h1, h2, h3, rfl⟩) hr

theorem benignCut_char {c : Char} (hc : benignCut c) :
    c ≠ '&' ∧ c ≠ '<' ∧ c ≠ '>' := by
  refine ⟨?_, ?_, ?_⟩ <;> rintro rfl
  · exact hc "&amp;".data (by decide) (by decide)
  · exact hc "<strong>".data (by decide) (by decide)
  · exact hc "<strong>".data (by decide) (by decide)

theorem Safe_split_aux {c : Char} (hc : benignCut c) :
    ∀ (ts : List (List Char)) (a b : List Char),
      (∀ t ∈ ts, okTok t) → a ++ c :: b = ts.flatten →
      Safe a ∧ Safe b := by
  intro ts
  induction ts with
  | nil =>
    intro a b _ heq
    simp at heq
  | cons t ts ih =>
    intro a b hts heq
    have hts' : ∀ x ∈ ts, okTok x := fun x hx => hts x (List.mem_cons_of_mem _ hx)
    have htok : okTok t := hts t (List.mem_cons_self _ _)
    rw [List.flatten_cons] at heq
    rcases List.append_eq_append_iff.mp heq with ⟨a2, ha2, hb2⟩ | ⟨c2, hc2, hd2⟩
    · -- t = a ++ a2 and c :: b = a2 ++ ts.flatten
      match a2, ha2, hb2 with
      | [], ha2, hb2 =>
        -- boundary exactly at the end of token t
        have hsa : Safe a :=
          ⟨[t], fun x hx => (List.mem_singleton.mp hx) ▸ htok,
           by rw [ha2]; simp⟩
        have := ih [] b hts' (by simpa using hb2)
        exact ⟨hsa, this.2⟩
      | x :: z, ha2, hb2 =>
        -- the cut character c lies inside token t
        simp only [List.cons_append] at hb2
        have hx : c = x := (List.cons.inj hb2).1
        have hb : b = z ++ ts.flatten := (List.cons.inj hb2).2
        subst hx
        have hmem : c ∈ t := by
          rw [ha2]
          exact List.mem_append_right a (List.mem_cons_self _ _)
        rcases htok with hmk | ⟨d, _, _, _, hd⟩
        · exact absurd hmem (hc t hmk)
        · -- t is the single character [c]; a and z must be empty
          match a, ha2 with
          | [], ha2 =>
            have hz : z = [] := by
              rw [hd] at ha2
              have hlen := congrArg List.length ha2
              simp only [List.length_cons, List.length_append, List.length_nil,
                List.nil_append] at hlen
              exact List.length_eq_zero.mp (by omega)
            subst hz
            refine ⟨Safe_nil, ⟨ts, hts', ?_⟩⟩
            simpa using hb
          | y :: a', ha2 =>
            rw [hd] at ha2
            have hlen := congrArg List.length ha2
            simp only [List.length_cons, List.length_append, List.length_nil] at hlen
            omega
    · -- a = t ++ c2 and ts.flatten = c2 ++ c :: b
      obtain ⟨hs1, hs2⟩ := ih c2 b hts' hd2.symm
      exact ⟨by rw [hc2]; exact Safe_tok htok hs1, hs2⟩

theorem Safe_split {c : Char} {a b : List Char} (hc : benignCut c)
    (h : Safe (a ++ c :: b)) : Safe a ∧ Safe b := by
  obtain ⟨ts, hts, heq⟩ := h
  exact Safe_split_aux hc ts a b hts heq

theorem Safe_cut_cons {c : Char} {l : List Char} (hc : benignCut c)
    (h : Safe (c :: l)) : Safe l :=
  (@Safe_split c [] l hc h).2

theorem Safe_peel {seg rest : List Char} (hseg : ∀ c ∈ seg, benignCut c)
    (h : Safe (seg ++ rest)) : Safe rest := by
  induction seg with
  | nil => simpa using h
  | cons c seg' ih =>
    exact ih (fun d hd => hseg d (List.mem_cons_of_mem _ hd))
      (Safe_cut_cons (hseg c (List.mem_cons_self _ _)) h)

theorem benignCut_of_notin {c : Char} (h : c ∉ markupToks.flatten) :
    benignCut c := by
  intro t ht hmem
  exact h (List.mem_flatten.mpr ⟨t, ht, hmem⟩)

theorem benignCut_ws {c : Char} (h : isWs c = true) : benignCut c := by
  apply benignCut_of_notin
  intro hmem
  have hall : ∀ x ∈ markupToks.flatten, isWs x = false := by decide
  rw [hall c hmem] at h
  cases h

theorem benignCut_digit {c : Char} (h : isDigitCh c = true) : benignCut c := by
  apply benignCut_of_notin
  intro hmem
  have hall : ∀ x ∈ markupToks.flatten, isDigitCh x = false := by decide
  rw [hall c hmem] at h
  cases h

theorem benignCut_star : benignCut '*' := by
  unfold benignCut; decide

theorem benignCut_dash : benignCut '-' := by
  unfold benignCut; decide

theorem benignCut_nl : benignCut '\n' := by
  unfold benignCut; decide


/-! ### Stage lemmas: escaping -/

theorem replLt_append : ∀ a b : List Char, replLt (a ++ b) = replLt a ++ replLt b := by
  intro a b
  induction a with
  | nil => rfl
  | cons c rest ih =>
    show (if c = '<' then "&lt;".data else [c]) ++ replLt (rest ++ b)
        = ((if c = '<' then "&lt;".data else [c]) ++ replLt rest) ++ replLt b
    rw [ih, List.append_assoc]

theorem replGt_append : ∀ a b : List Char, replGt (a ++ b) = replGt a ++ replGt b := by
  intro a b
  induction a with
  | nil => rfl
  | cons c rest ih =>
    show (if c = '>' then "&gt;".data else [c]) ++ replGt (rest ++ b)
        = ((if c = '>' then "&gt;".data else [c]) ++ replGt rest) ++ replGt b
    rw [ih, List.append_assoc]

/-- The three successive escape replaces act like one character-wise pass:
the `&` of an inserted `&amp;`/`&lt;`/`&gt;` is never re-escaped because
the `&` pass runs first, and the inserted entities contain no `<` or `>`. -/
theorem escapeHtml_eq_one : ∀ l, escapeHtml l = escapeOne l := by
  intro l
  induction l with
  | nil => rfl
  | cons c rest ih =>
    show replGt (replLt (replAmp (c :: rest))) = escChunk c ++ escapeOne rest
    rw [show replAmp (c :: rest)
          = (if c = '&' then "&amp;".data else [c]) ++ replAmp rest from rfl,
        replLt_append, replGt_append]
    rw [show replGt (replLt (replAmp rest)) = escapeHtml rest from rfl, ih]
    congr 1
    by_cases h1 : c = '&'
    · subst h1; decide
    · by_cases h2 : c = '<'
      · subst h2; decide
      · by_cases h3 : c = '>'
        · subst h3; decide
        · rw [if_neg h1]
          show replGt ((if c = '<' then "&lt;".data else [c]) ++ replLt []) = escChunk c
          rw [if_neg h2]
          show (if c = '>' then "&gt;".data else [c]) ++ replGt [] = escChunk c
          rw [if_neg h3]
          simp [escChunk, h1, h2, h3, replGt]

theorem Safe_escapeOne : ∀ l, Safe (escapeOne l) := by
  intro l
  induction l with
  | nil => exact Safe_nil
  | cons c rest ih =>
    show Safe (escChunk c ++ escapeOne rest)
    by_cases h1 : c = '&'
    · subst h1
      exact Safe_tok (Or.inl (by decide)) ih
    · by_cases h2 : c = '<'
      · subst h2
        exact Safe_tok (Or.inl (by decide)) ih
      · by_cases h3 : c = '>'
        · subst h3
          exact Safe_tok (Or.inl (by decide)) ih
        · rw [show escChunk c = [c] by simp [escChunk, h1, h2, h3]]
          exact Safe_char h1 h2 h3 ih

theorem Safe_escapeHtml (l : List Char) : Safe (escapeHtml l) := by
  rw [escapeHtml_eq_one]
  exact Safe_escapeOne l

/-! ### Stage lemmas: emphasis -/

/-- The bold scan copies any chunk free of `*` verbatim. -/
theorem replaceBold_nostar : ∀ t m : List Char, (∀ c ∈ t, c ≠ '*') →
    replaceBold (t ++ m) = t ++ replaceBold m := by
  intro t
  induction t with
  | nil => intro m _; rfl
  | cons c t' ih =>
    intro m h
    rw [List.cons_append, replaceBold_cons_ne _ (h c (List.mem_cons_self _ _)),
        ih m (fun d hd => h d (List.mem_cons_of_mem _ hd)), List.cons_append]

/-- The italic scan copies any chunk free of `*` verbatim. -/
theorem replaceItalic_nostar : ∀ t m : List Char, (∀ c ∈ t, c ≠ '*') →
    replaceItalic (t ++ m) = t ++ replaceItalic m := by
  intro t
  induction t with
  | nil => intro m _; rfl
  | cons c t' ih =>
    intro m h
    rw [List.cons_append, replaceItalic_cons_ne _ (h c (List.mem_cons_self _ _)),
        ih m (fun d hd => h d (List.mem_cons_of_mem _ hd)), List.cons_append]


/-- The bold replace preserves safety: token boundaries are never split
because cuts happen only at `*` characters, which occur in no markup
fragment. -/
theorem Safe_replaceBold : ∀ n l, l.length ≤ n → Safe l → Safe (replaceBold l) := by
  intro n
  induction n with
  | zero =>
    intro l hl _
    have : l = [] := List.length_eq_zero.mp (Nat.le_zero.mp hl)
    subst this
    exact Safe_nil
  | succ n ih =>
    intro l hl hs
    obtain ⟨ts, hts, heq⟩ := hs
    match ts, hts, heq with
    | [], _, heq =>
      subst heq
      exact Safe_nil
    | t :: ts', hts, heq =>
      have hts' : ∀ x ∈ ts', okTok x := fun x hx => hts x (List.mem_cons_of_mem _ hx)
      have hsrest : Safe ts'.flatten := ⟨ts', hts', rfl⟩
      rcases hts t (List.mem_cons_self _ _) with hmk | ⟨c, h1, h2, h3, hct⟩
      · -- markup token: star-free and nonempty
        have hstar : ∀ c ∈ t, c ≠ '*' := by
          intro c hm hcs
          subst hcs
          have hall : ∀ x ∈ markupToks.flatten, x ≠ '*' := by decide
          exact hall '*' (List.mem_flatten.mpr ⟨t, hmk, hm⟩) rfl
        have htne : t ≠ [] := by
          have hall : ∀ x ∈ markupToks, x ≠ [] := by decide
          exact hall t hmk
        rw [List.flatten_cons] at heq
        subst heq
        rw [replaceBold_nostar t _ hstar]
        refine Safe_tok (Or.inl hmk) (ih ts'.flatten ?_ hsrest)
        have hlen1 : 1 ≤ t.length := by
          cases t with
          | nil => exact absurd rfl htne
          | cons x xs => simp
        simp only [List.length_append] at hl
        omega
      · -- single benign character c
        subst hct
        rw [List.flatten_cons, List.singleton_append] at heq
        subst heq
        simp only [List.length_cons] at hl
        by_cases hstar : c = '*'
        · subst hstar
          cases hflat : ts'.flatten with
          | nil =>
            rw [replaceBold_star_one]
            exact Safe_char (by decide) (by decide) (by decide) Safe_nil
          | cons d m =>
            rw [hflat] at hsrest hl
            simp only [List.length_cons] at hl
            by_cases hd : d = '*'
            · subst hd
              cases hsds : splitAtDoubleStar m with
              | some p =>
                obtain ⟨inner, rest2⟩ := p
                obtain ⟨hm, _⟩ := splitAtDoubleStar_eq m inner rest2 hsds
                have hsm : Safe m := Safe_cut_cons benignCut_star hsrest
                rw [hm] at hsm
                obtain ⟨hinner, hstarrest⟩ := Safe_split benignCut_star hsm
                have hrest2 : Safe rest2 := Safe_cut_cons benignCut_star hstarrest
                have hlen := splitAtDoubleStar_length hsds
                rw [replaceBold_ss_some hsds]
                simp only [List.append_assoc]
                exact Safe_tok (Or.inl (show "<strong>".data ∈ markupToks by decide))
                  (Safe_append hinner
                    (Safe_tok (Or.inl (show "</strong>".data ∈ markupToks by decide))
                      (ih rest2 (by omega) hrest2)))
              | none =>
                rw [replaceBold_ss_none hsds]
                refine Safe_char (by decide) (by decide) (by decide) ?_
                refine ih ('*' :: m) ?_ hsrest
                simp only [List.length_cons]
                omega
            · rw [replaceBold_star_cons_ne _ hd]
              refine Safe_char (by decide) (by decide) (by decide) ?_
              refine ih (d :: m) ?_ hsrest
              simp only [List.length_cons]
              omega
        · rw [replaceBold_cons_ne _ hstar]
          exact Safe_char h1 h2 h3 (ih ts'.flatten (by omega) hsrest)

/-- The italic replace preserves safety. -/
theorem Safe_replaceItalic : ∀ n l, l.length ≤ n → Safe l → Safe (replaceItalic l) := by
  intro n
  induction n with
  | zero =>
    intro l hl _
    have : l = [] := List.length_eq_zero.mp (Nat.le_zero.mp hl)
    subst this
    exact Safe_nil
  | succ n ih =>
    intro l hl hs
    obtain ⟨ts, hts, heq⟩ := hs
    match ts, hts, heq with
    | [], _, heq =>
      subst heq
      exact Safe_nil
    | t :: ts', hts, heq =>
      have hts' : ∀ x ∈ ts', okTok x := fun x hx => hts x (List.mem_cons_of_mem _ hx)
      have hsrest : Safe ts'.flatten := ⟨ts', hts', rfl⟩
      rcases hts t (List.mem_cons_self _ _) with hmk | ⟨c, h1, h2, h3, hct⟩
      · have hstar : ∀ c ∈ t, c ≠ '*' := by
          intro c hm hcs
          subst hcs
          have hall : ∀ x ∈ markupToks.flatten, x ≠ '*' := by decide
          exact hall '*' (List.mem_flatten.mpr ⟨t, hmk, hm⟩) rfl
        have htne : t ≠ [] := by
          have hall : ∀ x ∈ markupToks, x ≠ [] := by decide
          exact hall t hmk
        rw [List.flatten_cons] at heq
        subst heq
        rw [replaceItalic_nostar t _ hstar]
        refine Safe_tok (Or.inl hmk) (ih ts'.flatten ?_ hsrest)
        have hlen1 : 1 ≤ t.length := by
          cases t with
          | nil => exact absurd rfl htne
          | cons x xs => simp
        simp only [List.length_append] at hl
        omega
      · subst hct
        rw [List.flatten_cons, List.singleton_append] at heq
        subst heq
        simp only [List.length_cons] at hl
        by_cases hstar : c = '*'
        · subst hstar
          cases hsds : splitAtStar ts'.flatten with
          | some p =>
            obtain ⟨inner, rest2⟩ := p
            obtain ⟨hm, _⟩ := splitAtStar_eq _ inner rest2 hsds
            have hsm : Safe ts'.flatten := hsrest
            rw [hm] at hsm
            obtain ⟨hinner, hrest2⟩ := Safe_split benignCut_star hsm
            have hlen := splitAtStar_length hsds
            rw [replaceItalic_star_some hsds]
            simp only [List.append_assoc]
            exact Safe_tok (Or.inl (show "<em>".data ∈ markupToks by decide))
              (Safe_append hinner
                (Safe_tok (Or.inl (show "</em>".data ∈ markupToks by decide))
                  (ih rest2 (by omega) hrest2)))
          | none =>
            rw [replaceItalic_star_none hsds]
            exact Safe_char (by decide) (by decide) (by decide)
              (ih ts'.flatten (by omega) hsrest)
        · rw [replaceItalic_cons_ne _ hstar]
          exact Safe_char h1 h2 h3 (ih ts'.flatten (by omega) hsrest)


/-! ### Stage lemmas: the two list-item scans -/

theorem benignCut_dot : benignCut '.' := by
  unfold benignCut; decide

theorem mem_takeWhile_pred {p : Char → Bool} {l : List Char} {c : Char}
    (h : c ∈ l.takeWhile p) : p c = true :=
  List.all_eq_true.mp List.all_takeWhile c h

theorem dropWhile_head_false {p : Char → Bool} :
    ∀ {l : List Char} {c r}, l.dropWhile p = c :: r → p c = false := by
  intro l
  induction l with
  | nil => intro c r h; cases h
  | cons x xs ih =>
    intro c r h
    by_cases hx : p x
    · rw [List.dropWhile_cons_of_pos hx] at h
      exact ih h
    · rw [List.dropWhile_cons_of_neg hx] at h
      obtain ⟨h1, _⟩ := List.cons.inj h
      rw [← h1]
      exact Bool.not_eq_true _ ▸ (by simpa using hx)

theorem tryULMatch_none_head {c : Char} {r : List Char}
    (hws : isWs c = false) (hd : c ≠ '-') : tryULMatch (c :: r) = none := by
  unfold tryULMatch
  rw [List.dropWhile_cons_of_neg (by simp [hws])]
  split
  · rename_i r2 heq
    exact absurd (List.cons.inj heq).1 hd
  · rfl

theorem tryOLMatch_none_head {c : Char} {r : List Char}
    (hws : isWs c = false) (hdig : isDigitCh c = false) :
    tryOLMatch (c :: r) = none := by
  unfold tryOLMatch
  rw [List.dropWhile_cons_of_neg (by simp [hws]),
      List.takeWhile_cons_of_neg (by simp [hdig])]
  rfl

theorem scanUL_false_chunk : ∀ t m : List Char, '\n' ∉ t →
    scanUL false (t ++ m) = t ++ scanUL false m := by
  intro t
  induction t with
  | nil => intro m _; rfl
  | cons c t' ih =>
    intro m h
    have hc : c ≠ '\n' := fun he => h (he ▸ List.mem_cons_self _ _)
    rw [List.cons_append, scanUL_false_cons, decide_eq_false hc,
        ih m (fun hm => h (List.mem_cons_of_mem _ hm)), List.cons_append]

theorem scanOL_false_chunk : ∀ t m : List Char, '\n' ∉ t →
    scanOL false (t ++ m) = t ++ scanOL false m := by
  intro t
  induction t with
  | nil => intro m _; rfl
  | cons c t' ih =>
    intro m h
    have hc : c ≠ '\n' := fun he => h (he ▸ List.mem_cons_self _ _)
    rw [List.cons_append, scanOL_false_cons, decide_eq_false hc,
        ih m (fun hm => h (List.mem_cons_of_mem _ hm)), List.cons_append]

/-- A chunk headed by a character that can start no list match (not
whitespace, not `-`) and containing no newline is copied verbatim by the
unordered-list scan. -/
theorem scanUL_tok {c0 : Char} {t' m : List Char} (b : Bool)
    (hnl : '\n' ∉ c0 :: t') (hws : isWs c0 = false) (hdash : c0 ≠ '-') :
    scanUL b ((c0 :: t') ++ m) = (c0 :: t') ++ scanUL false m := by
  cases b with
  | false => exact scanUL_false_chunk _ _ hnl
  | true =>
    have hc : c0 ≠ '\n' := fun he => hnl (he ▸ List.mem_cons_self _ _)
    rw [List.cons_append, scanUL_true_none (tryULMatch_none_head hws hdash),
        decide_eq_false hc,
        scanUL_false_chunk t' m (fun hm => hnl (List.mem_cons_of_mem _ hm)),
        List.cons_append]

theorem scanOL_tok {c0 : Char} {t' m : List Char} (b : Bool)
    (hnl : '\n' ∉ c0 :: t') (hws : isWs c0 = false) (hdig : isDigitCh c0 = false) :
    scanOL b ((c0 :: t') ++ m) = (c0 :: t') ++ scanOL false m := by
  cases b with
  | false => exact scanOL_false_chunk _ _ hnl
  | true =>
    have hc : c0 ≠ '\n' := fun he => hnl (he ▸ List.mem_cons_self _ _)
    rw [List.cons_append, scanOL_true_none (tryOLMatch_none_head hws hdig),
        decide_eq_false hc,
        scanOL_false_chunk t' m (fun hm => hnl (List.mem_cons_of_mem _ hm)),
        List.cons_append]

/-- The capture and rest of a successful list match are safe whenever the
whole input is: all の match boundaries fall at benign characters. -/
theorem Safe_ULMatch_parts {l cap r4 : List Char}
    (hs : Safe l) (ht : tryULMatch l = some (cap, r4)) :
    Safe cap ∧ Safe r4 := by
  obtain ⟨r2, hdec, _, hcap, hr4⟩ := tryULMatch_some ht
  rw [hdec] at hs
  have hs1 : Safe ('-' :: r2) :=
    Safe_peel (fun x hx => benignCut_ws (mem_takeWhile_pred hx)) hs
  have hs2 : Safe r2 := Safe_cut_cons benignCut_dash hs1
  rw [← List.takeWhile_append_dropWhile isWs r2] at hs2
  have hs3 : Safe (r2.dropWhile isWs) :=
    Safe_peel (fun x hx => benignCut_ws (mem_takeWhile_pred hx)) hs2
  rw [← List.takeWhile_append_dropWhile (· != '\n') (r2.dropWhile isWs)] at hs3
  rw [← hcap, ← hr4] at hs3
  cases hr4shape : r4 with
  | nil =>
    rw [hr4shape, List.append_nil] at hs3
    exact ⟨hs3, Safe_nil⟩
  | cons d r5 =>
    have hd := dropWhile_head_false (p := (· != '\n')) (hr4shape ▸ hr4.symm)
    have hdnl : d = '\n' := by simpa using hd
    subst hdnl
    rw [hr4shape] at hs3
    obtain ⟨hcapS, hr5⟩ := Safe_split benignCut_nl hs3
    exact ⟨hcapS, Safe_char (by decide) (by decide) (by decide) hr5⟩

theorem Safe_OLMatch_parts {l cap r4 : List Char}
    (hs : Safe l) (ht : tryOLMatch l = some (cap, r4)) :
    Safe cap ∧ Safe r4 := by
  obtain ⟨r2, hdec, _, _, hcap, hr4⟩ := tryOLMatch_some ht
  rw [hdec] at hs
  rw [List.append_assoc] at hs
  have hs0 : Safe ((l.dropWhile isWs).takeWhile isDigitCh ++ '.' :: r2) :=
    Safe_peel (fun x hx => benignCut_ws (mem_takeWhile_pred hx)) hs
  have hs1 : Safe ('.' :: r2) :=
    Safe_peel (fun x hx => benignCut_digit (mem_takeWhile_pred hx)) hs0
  have hs2 : Safe r2 := Safe_cut_cons benignCut_dot hs1
  rw [← List.takeWhile_append_dropWhile isWs r2] at hs2
  have hs3 : Safe (r2.dropWhile isWs) :=
    Safe_peel (fun x hx => benignCut_ws (mem_takeWhile_pred hx)) hs2
  rw [← List.takeWhile_append_dropWhile (· != '\n') (r2.dropWhile isWs)] at hs3
  rw [← hcap, ← hr4] at hs3
  cases hr4shape : r4 with
  | nil =>
    rw [hr4shape, List.append_nil] at hs3
    exact ⟨hs3, Safe_nil⟩
  | cons d r5 =>
    have hd := dropWhile_head_false (p := (· != '\n')) (hr4shape ▸ hr4.symm)
    have hdnl : d = '\n' := by simpa using hd
    subst hdnl
    rw [hr4shape] at hs3
    obtain ⟨hcapS, hr5⟩ := Safe_split benignCut_nl hs3
    exact ⟨hcapS, Safe_char (by decide) (by decide) (by decide) hr5⟩


/-- Heads of markup fragments start no list match and contain no newline. -/
theorem markupToks_head_facts : ∀ x ∈ markupToks,
    (isWs (x.headD 'x') = false ∧ x.headD 'x' ≠ '-' ∧
     isDigitCh (x.headD 'x') = false) ∧ '\n' ∉ x := by
  decide

/-- The unordered-list replace preserves safety. -/
theorem Safe_scanUL : ∀ n l (b : Bool), l.length ≤ n → Safe l → Safe (scanUL b l) := by
  intro n
  induction n with
  | zero =>
    intro l b hl _
    have : l = [] := List.length_eq_zero.mp (Nat.le_zero.mp hl)
    subst this
    rw [scanUL_nil]
    exact Safe_nil
  | succ n ih =>
    intro l b hl hs
    obtain ⟨ts, hts, heq⟩ := hs
    match ts, hts, heq with
    | [], _, heq =>
      have hnil : Safe (scanUL b []) := by rw [scanUL_nil]; exact Safe_nil
      first
        | exact hnil
        | (subst heq; exact hnil)
        | (rw [heq]; exact hnil)
        | simpa using hnil
    | t :: ts', hts, heq =>
      have hts' : ∀ x ∈ ts', okTok x := fun x hx => hts x (List.mem_cons_of_mem _ hx)
      have hsrest : Safe ts'.flatten := ⟨ts', hts', rfl⟩
      rcases hts t (List.mem_cons_self _ _) with hmk | ⟨c, h1, h2, h3, hct⟩
      · -- markup token
        obtain ⟨hheads, hnl⟩ := markupToks_head_facts t hmk
        cases t with
        | nil =>
          have : ([] : List Char) ∉ markupToks := by decide
          exact absurd hmk this
        | cons c0 t'' =>
          obtain ⟨hws, hdash, _⟩ := hheads
          rw [List.flatten_cons] at heq
          subst heq
          rw [scanUL_tok b hnl hws hdash]
          refine Safe_tok (Or.inl hmk) (ih ts'.flatten false ?_ hsrest)
          simp only [List.length_append, List.length_cons] at hl
          omega
      · -- single benign character
        subst hct
        rw [List.flatten_cons, List.singleton_append] at heq
        subst heq
        simp only [List.length_cons] at hl
        have hsl : Safe (c :: ts'.flatten) := Safe_char h1 h2 h3 hsrest
        cases b with
        | false =>
          rw [scanUL_false_cons]
          exact Safe_char h1 h2 h3 (ih ts'.flatten _ (by omega) hsrest)
        | true =>
          cases htm : tryULMatch (c :: ts'.flatten) with
          | none =>
            rw [scanUL_true_none htm]
            exact Safe_char h1 h2 h3 (ih ts'.flatten _ (by omega) hsrest)
          | some p =>
            obtain ⟨cap, r4⟩ := p
            obtain ⟨hcap, hr4⟩ := Safe_ULMatch_parts hsl htm
            have hlen := tryULMatch_length htm
            simp only [List.length_cons] at hlen
            rw [scanUL_true_some htm]
            simp only [List.append_assoc]
            exact Safe_tok (Or.inl (show "<li>".data ∈ markupToks by decide))
              (Safe_append hcap
                (Safe_tok (Or.inl (show "</li>".data ∈ markupToks by decide))
                  (ih r4 false (by omega) hr4)))

/-- The ordered-list replace preserves safety. -/
theorem Safe_scanOL : ∀ n l (b : Bool), l.length ≤ n → Safe l → Safe (scanOL b l) := by
  intro n
  induction n with
  | zero =>
    intro l b hl _
    have : l = [] := List.length_eq_zero.mp (Nat.le_zero.mp hl)
    subst this
    rw [scanOL_nil]
    exact Safe_nil
  | succ n ih =>
    intro l b hl hs
    obtain ⟨ts, hts, heq⟩ := hs
    match ts, hts, heq with
    | [], _, heq =>
      have hnil : Safe (scanOL b []) := by rw [scanOL_nil]; exact Safe_nil
      first
        | exact hnil
        | (subst heq; exact hnil)
        | (rw [heq]; exact hnil)
        | simpa using hnil
    | t :: ts', hts, heq =>
      have hts' : ∀ x ∈ ts', okTok x := fun x hx => hts x (List.mem_cons_of_mem _ hx)
      have hsrest : Safe ts'.flatten := ⟨ts', hts', rfl⟩
      rcases hts t (List.mem_cons_self _ _) with hmk | ⟨c, h1, h2, h3, hct⟩
      · obtain ⟨hheads, hnl⟩ := markupToks_head_facts t hmk
        cases t with
        | nil =>
          have : ([] : List Char) ∉ markupToks := by decide
          exact absurd hmk this
        | cons c0 t'' =>
          obtain ⟨hws, _, hdig⟩ := hheads
          rw [List.flatten_cons] at heq
          subst heq
          rw [scanOL_tok b hnl hws hdig]
          refine Safe_tok (Or.inl hmk) (ih ts'.flatten false ?_ hsrest)
          simp only [List.length_append, List.length_cons] at hl
          omega
      · subst hct
        rw [List.flatten_cons, List.singleton_append] at heq
        subst heq
        simp only [List.length_cons] at hl
        have hsl : Safe (c :: ts'.flatten) := Safe_char h1 h2 h3 hsrest
        cases b with
        | false =>
          rw [scanOL_false_cons]
          exact Safe_char h1 h2 h3 (ih ts'.flatten _ (by omega) hsrest)
        | true =>
          cases htm : tryOLMatch (c :: ts'.flatten) with
          | none =>
            rw [scanOL_true_none htm]
            exact Safe_char h1 h2 h3 (ih ts'.flatten _ (by omega) hsrest)
          | some p =>
            obtain ⟨cap, r4⟩ := p
            obtain ⟨hcap, hr4⟩ := Safe_OLMatch_parts hsl htm
            have hlen := tryOLMatch_length htm
            simp only [List.length_cons] at hlen
            rw [scanOL_true_some htm]
            simp only [List.append_assoc]
            exact Safe_tok (Or.inl (show "<li>".data ∈ markupToks by decide))
              (Safe_append hcap
                (Safe_tok (Or.inl (show "</li>".data ∈ markupToks by decide))
                  (ih r4 false (by omega) hr4)))


/-! ### Stage lemmas: line split and the walk -/

theorem splitOnNl_shape : ∀ l : List Char, ∃ h t, splitOnNl l = h :: t := by
  intro l
  induction l with
  | nil => exact ⟨[], [], rfl⟩
  | cons c rest ih =>
    obtain ⟨h, t, hht⟩ := ih
    by_cases hc : c = '\n'
    · subst hc
      exact ⟨[], splitOnNl rest, rfl⟩
    · refine ⟨c :: h, t, ?_⟩
      rw [show splitOnNl (c :: rest)
            = if c = '\n' then [] :: splitOnNl rest
              else match splitOnNl rest with
                | [] => [[c]]
                | h :: t => (c :: h) :: t from rfl,
          if_neg hc, hht]

theorem splitOnNl_chunk : ∀ (t m : List Char) h tl, '\n' ∉ t →
    splitOnNl m = h :: tl → splitOnNl (t ++ m) = (t ++ h) :: tl := by
  intro t
  induction t with
  | nil =>
    intro m h tl _ he
    simpa using he
  | cons c t' ih =>
    intro m h tl hnl he
    have hc : c ≠ '\n' := fun x => hnl (x ▸ List.mem_cons_self _ _)
    have ih' := ih m h tl (fun hm => hnl (List.mem_cons_of_mem _ hm)) he
    rw [List.cons_append,
        show splitOnNl (c :: (t' ++ m))
          = if c = '\n' then [] :: splitOnNl (t' ++ m)
            else match splitOnNl (t' ++ m) with
              | [] => [[c]]
              | h :: t => (c :: h) :: t from rfl,
        if_neg hc, ih']
    simp

theorem Safe_lines_aux : ∀ ts : List (List Char), (∀ t ∈ ts, okTok t) →
    ∀ x ∈ splitOnNl ts.flatten, Safe x := by
  intro ts
  induction ts with
  | nil =>
    intro _ x hx
    simp only [List.flatten_nil] at hx
    have : x = [] := by simpa [splitOnNl] using hx
    subst this
    exact Safe_nil
  | cons t ts' ih =>
    intro hts x hx
    have hts' : ∀ y ∈ ts', okTok y := fun y hy => hts y (List.mem_cons_of_mem _ hy)
    obtain ⟨h, tl, hshape⟩ := splitOnNl_shape ts'.flatten
    have hhS : Safe h := ih hts' h (by rw [hshape]; exact List.mem_cons_self _ _)
    have htlS : ∀ y ∈ tl, Safe y := fun y hy =>
      ih hts' y (by rw [hshape]; exact List.mem_cons_of_mem _ hy)
    rw [List.flatten_cons] at hx
    rcases hts t (List.mem_cons_self _ _) with hmk | ⟨c, h1, h2, h3, hct⟩
    · obtain ⟨_, hnl⟩ := markupToks_head_facts t hmk
      rw [splitOnNl_chunk t _ h tl hnl hshape] at hx
      rcases List.mem_cons.mp hx with hx1 | hx2
      · subst hx1
        exact Safe_tok (Or.inl hmk) hhS
      · exact htlS x hx2
    · subst hct
      rw [List.singleton_append] at hx
      by_cases hc : c = '\n'
      · subst hc
        rw [show splitOnNl ('\n' :: ts'.flatten) = [] :: splitOnNl ts'.flatten
              from rfl] at hx
        rcases List.mem_cons.mp hx with hx1 | hx2
        · subst hx1
          exact Safe_nil
        · exact ih hts' x hx2
      · rw [show (c :: ts'.flatten) = [c] ++ ts'.flatten from rfl,
            splitOnNl_chunk [c] _ h tl
              (fun hmem => hc (List.mem_singleton.mp hmem).symm) hshape] at hx
        rcases List.mem_cons.mp hx with hx1 | hx2
        · subst hx1
          exact Safe_char h1 h2 h3 hhS
        · exact htlS x hx2

theorem Safe_lines {l : List Char} (hs : Safe l) :
    ∀ x ∈ splitOnNl l, Safe x := by
  obtain ⟨ts, hts, heq⟩ := hs
  subst heq
  exact Safe_lines_aux ts hts

theorem Safe_single_tok {t : List Char} (h : t ∈ markupToks) : Safe t := by
  have := Safe_tok (Or.inl h) Safe_nil
  simpa using this

theorem Safe_processLines : ∀ (lines : List (List Char)) (b : Bool),
    (∀ x ∈ lines, Safe x) → Safe (processLines lines b) := by
  intro lines
  induction lines with
  | nil =>
    intro b _
    cases b with
    | true =>
      show Safe (if true then "</ul>".data else [])
      rw [if_pos rfl]
      exact Safe_single_tok (by decide)
    | false =>
      show Safe (if false then "</ul>".data else [])
      rw [if_neg (by simp)]
      exact Safe_nil
  | cons line rest ih =>
    intro b hall
    have hline : Safe line := hall line (List.mem_cons_self _ _)
    have hrest : ∀ x ∈ rest, Safe x := fun x hx => hall x (List.mem_cons_of_mem _ hx)
    show Safe (if containsLi line then
        (if b then line else "<ul>".data ++ line) ++ processLines rest true
      else
        (if b then "</ul>".data else []) ++
        (if hasContent line then "<p>".data ++ line ++ "</p>".data else []) ++
        processLines rest false)
    by_cases hcl : containsLi line
    · rw [if_pos hcl]
      cases b with
      | true =>
        rw [if_pos rfl]
        exact Safe_append hline (ih true hrest)
      | false =>
        rw [if_neg (by simp)]
        rw [List.append_assoc]
        exact Safe_tok (Or.inl (show "<ul>".data ∈ markupToks by decide))
          (Safe_append hline (ih true hrest))
    · rw [if_neg hcl]
      have hmid : Safe (if hasContent line then
          "<p>".data ++ line ++ "</p>".data else []) := by
        by_cases hhc : hasContent line
        · rw [if_pos hhc]
          rw [List.append_assoc]
          exact Safe_tok (Or.inl (show "<p>".data ∈ markupToks by decide))
            (Safe_append hline (Safe_single_tok (by decide)))
        · rw [if_neg hhc]
          exact Safe_nil
      cases b with
      | true =>
        rw [if_pos rfl, List.append_assoc]
        exact Safe_tok (Or.inl (show "</ul>".data ∈ markupToks by decide))
          (Safe_append hmid (ih false hrest))
      | false =>
        rw [if_neg (by simp)]
        rw [List.nil_append]
        exact Safe_append hmid (ih false hrest)

/-- Claim C1: for every input string, the renderer output decomposes into
generated markup fragments (the entities `&amp;` `&lt;` `&gt;` and the
emitted tags) and single characters other than `&`, `<`, `>`.  Hence every
`&`, `<`, `>` originating in the input appears in the output only in
escaped entity form, never as a loose literal character: the escaping step
runs first and the later transforms never split an entity or tag, because
all their match boundaries fall on characters (`*`, whitespace, `-`,
digits, `.`, newline) that occur in no entity or tag. -/
theorem c1_escape_safety (s : String) : Safe (parseMarkdown s).data := by
  unfold parseMarkdown
  by_cases h : s = ""
  · rw [if_pos h]
    exact Safe_nil
  · rw [if_neg h]
    show Safe (mdPipeline s.data)
    unfold mdPipeline
    apply Safe_processLines _ false
    apply Safe_lines
    exact Safe_scanOL _ _ true le_rfl
      (Safe_scanUL _ _ true le_rfl
        (Safe_replaceItalic _ _ le_rfl
          (Safe_replaceBold _ _ le_rfl
            (Safe_escapeHtml s.data))))

/-! ### C5 development: line structure of the pipeline.

We show that on inputs all of whose lines carry a list marker with
visible item text, the renderer emits exactly one `<ul>…</ul>` grouping.
First: lemmas relating `splitOnNl`, `joinNl` and the per-line stages. -/

theorem splitOnNl_nl_cons (l : List Char) :
    splitOnNl ('\n' :: l) = [] :: splitOnNl l := by
  rw [show splitOnNl ('\n' :: l)
        = if ('\n' : Char) = '\n' then [] :: splitOnNl l
          else match splitOnNl l with
            | [] => [['\n']]
            | h :: t => ('\n' :: h) :: t from rfl,
      if_pos rfl]

theorem splitOnNl_cons_ne {c : Char} (l : List Char) (hc : c ≠ '\n')
    {h : List Char} {t : List (List Char)} (he : splitOnNl l = h :: t) :
    splitOnNl (c :: l) = (c :: h) :: t := by
  rw [show splitOnNl (c :: l)
        = if c = '\n' then [] :: splitOnNl l
          else match splitOnNl l with
            | [] => [[c]]
            | h :: t => (c :: h) :: t from rfl,
      if_neg hc, he]

theorem splitOnNl_no_nl : ∀ (l : List Char), ∀ x ∈ splitOnNl l, '\n' ∉ x := by
  intro l
  induction l with
  | nil =>
    intro x hx
    simp [splitOnNl] at hx
    subst hx; simp
  | cons c rest ih =>
    intro x hx
    by_cases hc : c = '\n'
    · subst hc
      rw [splitOnNl_nl_cons] at hx
      rcases List.mem_cons.mp hx with h | h
      · subst h; simp
      · exact ih x h
    · obtain ⟨h, t, hht⟩ := splitOnNl_shape rest
      rw [splitOnNl_cons_ne rest hc hht] at hx
      rcases List.mem_cons.mp hx with hx | hx
      · subst hx
        intro hmem
        rcases List.mem_cons.mp hmem with h1 | h1
        · exact hc h1.symm
        · exact ih h (hht ▸ List.mem_cons_self _ _) h1
      · exact ih x (hht ▸ List.mem_cons_of_mem _ hx)

theorem joinNl_cons_cons (x y : List Char) (t : List (List Char)) :
    joinNl (x :: y :: t) = x ++ '\n' :: joinNl (y :: t) := rfl

theorem joinNl_splitOnNl : ∀ l : List Char, joinNl (splitOnNl l) = l := by
  intro l
  induction l with
  | nil => rfl
  | cons c rest ih =>
    obtain ⟨h, t, hht⟩ := splitOnNl_shape rest
    rw [hht] at ih
    by_cases hc : c = '\n'
    · subst hc
      rw [splitOnNl_nl_cons, hht, joinNl_cons_cons, ih]
      rfl
    · rw [splitOnNl_cons_ne rest hc hht]
      cases t with
      | nil =>
        show c :: h = c :: rest
        rw [show joinNl [h] = h from rfl] at ih
        rw [ih]
      | cons t0 t1 =>
        rw [joinNl_cons_cons] at ih ⊢
        rw [List.cons_append, ih]

theorem splitOnNl_nonl {x : List Char} (h : '\n' ∉ x) : splitOnNl x = [x] := by
  have := splitOnNl_chunk x [] [] [] h rfl
  simpa using this

theorem splitOnNl_joinNl : ∀ lines : List (List Char), lines ≠ [] →
    (∀ y ∈ lines, '\n' ∉ y) → splitOnNl (joinNl lines) = lines := by
  intro lines
  induction lines with
  | nil => intro h; exact absurd rfl h
  | cons x rest ih =>
    intro _ hnl
    cases rest with
    | nil =>
      rw [show joinNl [x] = x from rfl]
      exact splitOnNl_nonl (hnl x (List.mem_cons_self _ _))
    | cons y t =>
      have hx : '\n' ∉ x := hnl x (List.mem_cons_self _ _)
      have hrest := ih (by simp) (fun z hz => hnl z (List.mem_cons_of_mem _ hz))
      rw [joinNl_cons_cons,
          splitOnNl_chunk x ('\n' :: joinNl (y :: t)) [] (splitOnNl (joinNl (y :: t)))
            hx (splitOnNl_nl_cons _),
          hrest]
      simp

theorem escapeOne_append : ∀ a b : List Char,
    escapeOne (a ++ b) = escapeOne a ++ escapeOne b := by
  intro a b
  induction a with
  | nil => rfl
  | cons c a' ih =>
    show escChunk c ++ escapeOne (a' ++ b) = (escChunk c ++ escapeOne a') ++ escapeOne b
    rw [ih, List.append_assoc]

theorem escChunk_no_nl {c : Char} (hc : c ≠ '\n') : '\n' ∉ escChunk c := by
  unfold escChunk
  by_cases h1 : c = '&'
  · rw [if_pos h1]; decide
  · rw [if_neg h1]
    by_cases h2 : c = '<'
    · rw [if_pos h2]; decide
    · rw [if_neg h2]
      by_cases h3 : c = '>'
      · rw [if_pos h3]; decide
      · rw [if_neg h3]
        intro hm
        exact hc (List.mem_singleton.mp hm).symm

theorem escChunk_nl : escChunk '\n' = ['\n'] := by decide

theorem splitOnNl_escapeOne : ∀ l : List Char,
    splitOnNl (escapeOne l) = (splitOnNl l).map escapeOne := by
  intro l
  induction l with
  | nil => rfl
  | cons c rest ih =>
    by_cases hc : c = '\n'
    · subst hc
      rw [show escapeOne ('\n' :: rest) = escChunk '\n' ++ escapeOne rest from rfl,
          escChunk_nl, List.singleton_append, splitOnNl_nl_cons,
          splitOnNl_nl_cons, List.map_cons, ih]
      rfl
    · obtain ⟨h, t, hht⟩ := splitOnNl_shape rest
      obtain ⟨h2, t2, hht2⟩ := splitOnNl_shape (escapeOne rest)
      rw [show escapeOne (c :: rest) = escChunk c ++ escapeOne rest from rfl,
          splitOnNl_chunk _ _ _ _ (escChunk_no_nl hc) hht2,
          splitOnNl_cons_ne rest hc hht]
      rw [hht2, hht, List.map_cons] at ih
      injection ih with ih1 ih2
      rw [List.map_cons, ih2,
          show escapeOne (c :: h) = escChunk c ++ escapeOne h from rfl, ih1]

/-! Appending text after a successful `**`-scan does not change the match;
appending a newline-headed tail after a failed scan of a newline-free
string still fails (the scan stops at the `\n`). -/
theorem sds_app_some : ∀ l i r (z : List Char),
    splitAtDoubleStar l = some (i, r) →
    splitAtDoubleStar (l ++ z) = some (i, r ++ z) := by
  intro l
  induction l using splitAtDoubleStar.induct with
  | case1 rest =>
    intro i r z h
    simp [splitAtDoubleStar] at h
    obtain ⟨h1, h2⟩ := h
    subst h1; subst h2
    simp [splitAtDoubleStar]
  | case2 tail =>
    intro i r z h
    simp [splitAtDoubleStar] at h
  | case3 c rest hne hnl ih =>
    intro i r z h
    rw [splitAtDoubleStar.eq_3 c rest hne hnl] at h
    match hsd : splitAtDoubleStar rest, h with
    | some (i', r'), h =>
      simp at h
      obtain ⟨h1, h2⟩ := h
      rw [List.cons_append,
          splitAtDoubleStar.eq_3 c (rest ++ z)
            (fun r1 hc hr => by
              cases rest with
              | nil => simp [splitAtDoubleStar] at hsd
              | cons r0 rtl =>
                rw [List.cons_append] at hr
                injection hr with h3 h4
                exact hne rtl hc (by rw [h3]))
            hnl,
          ih i' r' z hsd]
      simp [← h1, ← h2]
  | case4 =>
    intro i r z h
    simp [splitAtDoubleStar] at h

theorem sds_app_none : ∀ l, splitAtDoubleStar l = none → '\n' ∉ l →
    ∀ z : List Char, splitAtDoubleStar (l ++ '\n' :: z) = none := by
  intro l
  induction l using splitAtDoubleStar.induct with
  | case1 rest =>
    intro h _ z
    simp [splitAtDoubleStar] at h
  | case2 tail =>
    intro _ hmem z
    exact absurd (List.mem_cons_self _ _) hmem
  | case3 c rest hne hnl ih =>
    intro h hmem z
    rw [splitAtDoubleStar.eq_3 c rest hne hnl] at h
    have hrest : splitAtDoubleStar rest = none := by
      cases hsd : splitAtDoubleStar rest with
      | none => rfl
      | some p => rw [hsd] at h; simp at h
    rw [List.cons_append,
        splitAtDoubleStar.eq_3 c (rest ++ '\n' :: z)
          (fun r1 hc hr => by
            cases rest with
            | nil =>
              rw [List.nil_append] at hr
              injection hr with h3 h4
              exact absurd h3 (by decide)
            | cons r0 rtl =>
              rw [List.cons_append] at hr
              injection hr with h3 h4
              exact hne rtl hc (by rw [h3]))
          hnl,
        ih hrest (fun hm => hmem (List.mem_cons_of_mem _ hm)) z]
    rfl
  | case4 =>
    intro _ _ z
    rw [List.nil_append]
    rfl

theorem sas_app_some : ∀ l i r (z : List Char),
    splitAtStar l = some (i, r) →
    splitAtStar (l ++ z) = some (i, r ++ z) := by
  intro l
  induction l using splitAtStar.induct with
  | case1 rest =>
    intro i r z h
    simp [splitAtStar] at h
    obtain ⟨h1, h2⟩ := h
    subst h1; subst h2
    simp [splitAtStar]
  | case2 tail =>
    intro i r z h
    simp [splitAtStar] at h
  | case3 c rest hne hnl ih =>
    intro i r z h
    rw [splitAtStar.eq_3 c rest hne hnl] at h
    match hsd : splitAtStar rest, h with
    | some (i', r'), h =>
      simp at h
      obtain ⟨h1, h2⟩ := h
      rw [List.cons_append, splitAtStar.eq_3 c (rest ++ z) hne hnl,
          ih i' r' z hsd]
      simp [← h1, ← h2]
  | case4 =>
    intro i r z h
    simp [splitAtStar] at h

theorem sas_app_none : ∀ l, splitAtStar l = none → '\n' ∉ l →
    ∀ z : List Char, splitAtStar (l ++ '\n' :: z) = none := by
  intro l
  induction l using splitAtStar.induct with
  | case1 rest =>
    intro h _ z
    simp [splitAtStar] at h
  | case2 tail =>
    intro _ hmem z
    exact absurd (List.mem_cons_self _ _) hmem
  | case3 c rest hne hnl ih =>
    intro h hmem z
    rw [splitAtStar.eq_3 c rest hne hnl] at h
    have hrest : splitAtStar rest = none := by
      cases hsd : splitAtStar rest with
      | none => rfl
      | some p => rw [hsd] at h; simp at h
    rw [List.cons_append, splitAtStar.eq_3 c (rest ++ '\n' :: z) hne hnl,
        ih hrest (fun hm => hmem (List.mem_cons_of_mem _ hm)) z]
    rfl
  | case4 =>
    intro _ _ z
    rw [List.nil_append]
    rfl

/-! The emphasis replaces act line by line: a newline is never consumed
by a match, and never produced. -/
theorem replaceBold_line : ∀ n x, x.length ≤ n → '\n' ∉ x → ∀ b : List Char,
    replaceBold (x ++ '\n' :: b) = replaceBold x ++ '\n' :: replaceBold b := by
  intro n
  induction n with
  | zero =>
    intro x hl _ b
    have hx : x = [] := List.eq_nil_of_length_eq_zero (Nat.le_zero.mp hl)
    subst hx
    rw [List.nil_append, replaceBold_cons_ne _ (by decide), replaceBold_nil,
        List.nil_append]
  | succ n ih =>
    intro x hl hnl b
    match x with
    | [] =>
      rw [List.nil_append, replaceBold_cons_ne _ (by decide), replaceBold_nil,
          List.nil_append]
    | c :: x' =>
      by_cases hc : c = '*'
      · subst hc
        match x' with
        | [] =>
          rw [List.cons_append, List.nil_append,
              replaceBold_star_cons_ne _ (by decide),
              replaceBold_cons_ne _ (by decide), replaceBold_star_one]
          rfl
        | d :: x'' =>
          by_cases hd : d = '*'
          · subst hd
            have hnl'' : '\n' ∉ x'' := fun hm =>
              hnl (List.mem_cons_of_mem _ (List.mem_cons_of_mem _ hm))
            cases hss : splitAtDoubleStar x'' with
            | some p =>
              obtain ⟨inner, rest2⟩ := p
              obtain ⟨hdec, hinn⟩ := splitAtDoubleStar_eq x'' inner rest2 hss
              have hr2nl : '\n' ∉ rest2 := fun hm => hnl'' (by
                rw [hdec]
                exact List.mem_append_right _
                  (List.mem_cons_of_mem _ (List.mem_cons_of_mem _ hm)))
              have hr2len : rest2.length ≤ n := by
                have h1 : x''.length = inner.length + 2 + rest2.length := by
                  rw [hdec]; simp; omega
                simp only [List.length_cons] at hl
                omega
              rw [List.cons_append, List.cons_append,
                  replaceBold_ss_some (sds_app_some x'' inner rest2 _ hss),
                  ih rest2 hr2len hr2nl b,
                  replaceBold_ss_some hss]
              simp [List.append_assoc]
            | none =>
              have hlen2 : ('*' :: x'').length ≤ n := by
                simp only [List.length_cons] at hl ⊢; omega
              have hnl2 : '\n' ∉ ('*' :: x'') := fun hm => by
                rcases List.mem_cons.mp hm with h1 | h1
                · exact absurd h1 (by decide)
                · exact hnl'' h1
              rw [List.cons_append, List.cons_append,
                  replaceBold_ss_none (sds_app_none x'' hss hnl'' b),
                  show '*' :: (x'' ++ '\n' :: b) = ('*' :: x'') ++ '\n' :: b from rfl,
                  ih ('*' :: x'') hlen2 hnl2 b,
                  replaceBold_ss_none hss]
              rfl
          · have hlen2 : (d :: x'').length ≤ n := by
              simp only [List.length_cons] at hl ⊢; omega
            have hnl2 : '\n' ∉ (d :: x'') := fun hm => hnl (List.mem_cons_of_mem _ hm)
            rw [List.cons_append, List.cons_append,
                replaceBold_star_cons_ne _ hd,
                show d :: (x'' ++ '\n' :: b) = (d :: x'') ++ '\n' :: b from rfl,
                ih (d :: x'') hlen2 hnl2 b,
                replaceBold_star_cons_ne _ hd]
            rfl
      · have hlen2 : x'.length ≤ n := by
          simp only [List.length_cons] at hl; omega
        have hnl2 : '\n' ∉ x' := fun hm => hnl (List.mem_cons_of_mem _ hm)
        rw [List.cons_append, replaceBold_cons_ne _ hc,
            ih x' hlen2 hnl2 b, replaceBold_cons_ne _ hc]
        rfl

theorem replaceItalic_line : ∀ n x, x.length ≤ n → '\n' ∉ x → ∀ b : List Char,
    replaceItalic (x ++ '\n' :: b) = replaceItalic x ++ '\n' :: replaceItalic b := by
  intro n
  induction n with
  | zero =>
    intro x hl _ b
    have hx : x = [] := List.eq_nil_of_length_eq_zero (Nat.le_zero.mp hl)
    subst hx
    rw [List.nil_append, replaceItalic_cons_ne _ (by decide), replaceItalic_nil,
        List.nil_append]
  | succ n ih =>
    intro x hl hnl b
    match x with
    | [] =>
      rw [List.nil_append, replaceItalic_cons_ne _ (by decide), replaceItalic_nil,
          List.nil_append]
    | c :: x' =>
      by_cases hc : c = '*'
      · subst hc
        have hnl' : '\n' ∉ x' := fun hm => hnl (List.mem_cons_of_mem _ hm)
        cases hss : splitAtStar x' with
        | some p =>
          obtain ⟨inner, rest2⟩ := p
          obtain ⟨hdec, hinn⟩ := splitAtStar_eq x' inner rest2 hss
          have hr2nl : '\n' ∉ rest2 := fun hm => hnl' (by
            rw [hdec]
            exact List.mem_append_right _ (List.mem_cons_of_mem _ hm))
          have hr2len : rest2.length ≤ n := by
            have h1 : x'.length = inner.length + 1 + rest2.length := by
              rw [hdec]; simp; omega
            simp only [List.length_cons] at hl
            omega
          rw [List.cons_append,
              replaceItalic_star_some (sas_app_some x' inner rest2 _ hss),
              ih rest2 hr2len hr2nl b,
              replaceItalic_star_some hss]
          simp [List.append_assoc]
        | none =>
          have hlen2 : x'.length ≤ n := by
            simp only [List.length_cons] at hl; omega
          rw [List.cons_append,
              replaceItalic_star_none (sas_app_none x' hss hnl' b),
              ih x' hlen2 hnl' b,
              replaceItalic_star_none hss]
          rfl
      · have hlen2 : x'.length ≤ n := by
          simp only [List.length_cons] at hl; omega
        have hnl2 : '\n' ∉ x' := fun hm => hnl (List.mem_cons_of_mem _ hm)
        rw [List.cons_append, replaceItalic_cons_ne _ hc,
            ih x' hlen2 hnl2 b, replaceItalic_cons_ne _ hc]
        rfl

theorem replaceBold_nl_free : ∀ n x, x.length ≤ n → '\n' ∉ x →
    '\n' ∉ replaceBold x := by
  intro n
  induction n with
  | zero =>
    intro x hl _
    have hx : x = [] := List.eq_nil_of_length_eq_zero (Nat.le_zero.mp hl)
    subst hx
    simp [replaceBold_nil]
  | succ n ih =>
    intro x hl hnl
    match x with
    | [] => simp [replaceBold_nil]
    | c :: x' =>
      by_cases hc : c = '*'
      · subst hc
        match x' with
        | [] =>
          rw [replaceBold_star_one]
          decide
        | d :: x'' =>
          by_cases hd : d = '*'
          · subst hd
            have hnl'' : '\n' ∉ x'' := fun hm =>
              hnl (List.mem_cons_of_mem _ (List.mem_cons_of_mem _ hm))
            cases hss : splitAtDoubleStar x'' with
            | some p =>
              obtain ⟨inner, rest2⟩ := p
              obtain ⟨hdec, hinn⟩ := splitAtDoubleStar_eq x'' inner rest2 hss
              have hr2nl : '\n' ∉ rest2 := fun hm => hnl'' (by
                rw [hdec]
                exact List.mem_append_right _
                  (List.mem_cons_of_mem _ (List.mem_cons_of_mem _ hm)))
              have hr2len : rest2.length ≤ n := by
                have h1 : x''.length = inner.length + 2 + rest2.length := by
                  rw [hdec]; simp; omega
                simp only [List.length_cons] at hl
                omega
              rw [replaceBold_ss_some hss]
              intro hm
              simp only [List.mem_append] at hm
              rcases hm with ((h1 | h1) | h1) | h1
              · revert h1; decide
              · exact hinn h1
              · revert h1; decide
              · exact ih rest2 hr2len hr2nl h1
            | none =>
              have hlen2 : ('*' :: x'').length ≤ n := by
                simp only [List.length_cons] at hl ⊢; omega
              have hnl2 : '\n' ∉ ('*' :: x'') := fun hm => by
                rcases List.mem_cons.mp hm with h1 | h1
                · exact absurd h1 (by decide)
                · exact hnl'' h1
              rw [replaceBold_ss_none hss]
              intro hm
              rcases List.mem_cons.mp hm with h1 | h1
              · exact absurd h1 (by decide)
              · exact ih ('*' :: x'') hlen2 hnl2 h1
          · have hlen2 : (d :: x'').length ≤ n := by
              simp only [List.length_cons] at hl ⊢; omega
            have hnl2 : '\n' ∉ (d :: x'') := fun hm => hnl (List.mem_cons_of_mem _ hm)
            rw [replaceBold_star_cons_ne _ hd]
            intro hm
            rcases List.mem_cons.mp hm with h1 | h1
            · exact absurd h1 (by decide)
            · exact ih (d :: x'') hlen2 hnl2 h1
      · have hlen2 : x'.length ≤ n := by
          simp only [List.length_cons] at hl; omega
        have hnl2 : '\n' ∉ x' := fun hm => hnl (List.mem_cons_of_mem _ hm)
        rw [replaceBold_cons_ne _ hc]
        intro hm
        rcases List.mem_cons.mp hm with h1 | h1
        · exact hnl (h1 ▸ List.mem_cons_self _ _)
        · exact ih x' hlen2 hnl2 h1

theorem replaceItalic_nl_free : ∀ n x, x.length ≤ n → '\n' ∉ x →
    '\n' ∉ replaceItalic x := by
  intro n
  induction n with
  | zero =>
    intro x hl _
    have hx : x = [] := List.eq_nil_of_length_eq_zero (Nat.le_zero.mp hl)
    subst hx
    simp [replaceItalic_nil]
  | succ n ih =>
    intro x hl hnl
    match x with
    | [] => simp [replaceItalic_nil]
    | c :: x' =>
      by_cases hc : c = '*'
      · subst hc
        have hnl' : '\n' ∉ x' := fun hm => hnl (List.mem_cons_of_mem _ hm)
        cases hss : splitAtStar x' with
        | some p =>
          obtain ⟨inner, rest2⟩ := p
          obtain ⟨hdec, hinn⟩ := splitAtStar_eq x' inner rest2 hss
          have hr2nl : '\n' ∉ rest2 := fun hm => hnl' (by
            rw [hdec]
            exact List.mem_append_right _ (List.mem_cons_of_mem _ hm))
          have hr2len : rest2.length ≤ n := by
            have h1 : x'.length = inner.length + 1 + rest2.length := by
              rw [hdec]; simp; omega
            simp only [List.length_cons] at hl
            omega
          rw [replaceItalic_star_some hss]
          intro hm
          simp only [List.mem_append] at hm
          rcases hm with ((h1 | h1) | h1) | h1
          · revert h1; decide
          · exact hinn h1
          · revert h1; decide
          · exact ih rest2 hr2len hr2nl h1
        | none =>
          have hlen2 : x'.length ≤ n := by
            simp only [List.length_cons] at hl; omega
          rw [replaceItalic_star_none hss]
          intro hm
          rcases List.mem_cons.mp hm with h1 | h1
          · exact absurd h1 (by decide)
          · exact ih x' hlen2 hnl' h1
      · have hlen2 : x'.length ≤ n := by
          simp only [List.length_cons] at hl; omega
        have hnl2 : '\n' ∉ x' := fun hm => hnl (List.mem_cons_of_mem _ hm)
        rw [replaceItalic_cons_ne _ hc]
        intro hm
        rcases List.mem_cons.mp hm with h1 | h1
        · exact hnl (h1 ▸ List.mem_cons_self _ _)
        · exact ih x' hlen2 hnl2 h1

/-- Every character list either contains no newline or splits at its
first newline. -/
theorem firstNlSplit : ∀ l : List Char,
    '\n' ∉ l ∨ ∃ x b, l = x ++ '\n' :: b ∧ '\n' ∉ x := by
  intro l
  induction l with
  | nil => left; simp
  | cons c rest ih =>
    by_cases hc : c = '\n'
    · right
      exact ⟨[], rest, by rw [hc]; rfl, by simp⟩
    · rcases ih with h | ⟨x, b, heq, hx⟩
      · left
        intro hm
        rcases List.mem_cons.mp hm with h1 | h1
        · exact hc h1.symm
        · exact h h1
      · right
        refine ⟨c :: x, b, by rw [heq]; rfl, ?_⟩
        intro hm
        rcases List.mem_cons.mp hm with h1 | h1
        · exact hc h1.symm
        · exact hx h1

theorem splitOnNl_replaceBold : ∀ n l, l.length ≤ n →
    splitOnNl (replaceBold l) = (splitOnNl l).map replaceBold := by
  intro n
  induction n with
  | zero =>
    intro l hl
    have hx : l = [] := List.eq_nil_of_length_eq_zero (Nat.le_zero.mp hl)
    subst hx
    rfl
  | succ n ih =>
    intro l hl
    rcases firstNlSplit l with hfree | ⟨x, b, heq, hx⟩
    · rw [splitOnNl_nonl hfree,
          splitOnNl_nonl (replaceBold_nl_free l.length l le_rfl hfree)]
      rfl
    · subst heq
      have hblen : b.length ≤ n := by
        simp only [List.length_append, List.length_cons] at hl
        omega
      rw [replaceBold_line x.length x le_rfl hx b,
          splitOnNl_chunk _ _ _ _ (replaceBold_nl_free x.length x le_rfl hx)
            (splitOnNl_nl_cons (replaceBold b)),
          splitOnNl_chunk _ _ _ _ hx (splitOnNl_nl_cons b),
          List.map_cons, ih b hblen]
      simp

theorem splitOnNl_replaceItalic : ∀ n l, l.length ≤ n →
    splitOnNl (replaceItalic l) = (splitOnNl l).map replaceItalic := by
  intro n
  induction n with
  | zero =>
    intro l hl
    have hx : l = [] := List.eq_nil_of_length_eq_zero (Nat.le_zero.mp hl)
    subst hx
    rfl
  | succ n ih =>
    intro l hl
    rcases firstNlSplit l with hfree | ⟨x, b, heq, hx⟩
    · rw [splitOnNl_nonl hfree,
          splitOnNl_nonl (replaceItalic_nl_free l.length l le_rfl hfree)]
      rfl
    · subst heq
      have hblen : b.length ≤ n := by
        simp only [List.length_append, List.length_cons] at hl
        omega
      rw [replaceItalic_line x.length x le_rfl hx b,
          splitOnNl_chunk _ _ _ _ (replaceItalic_nl_free x.length x le_rfl hx)
            (splitOnNl_nl_cons (replaceItalic b)),
          splitOnNl_chunk _ _ _ _ hx (splitOnNl_nl_cons b),
          List.map_cons, ih b hblen]
      simp

/-! Goodness of marker lines: extraction from the Boolean tests and
preservation through the escaping and emphasis stages. -/

theorem takeWhile_pos_app (p : Char → Bool) :
    ∀ (w m : List Char), (∀ c ∈ w, p c = true) →
      (w ++ m).takeWhile p = w ++ m.takeWhile p := by
  intro w
  induction w with
  | nil => intro m _; rfl
  | cons c w' ih =>
    intro m h
    rw [List.cons_append, List.takeWhile_cons_of_pos (h c (List.mem_cons_self _ _)),
        ih m (fun d hd => h d (List.mem_cons_of_mem _ hd)), List.cons_append]

theorem dropWhile_pos_app (p : Char → Bool) :
    ∀ (w m : List Char), (∀ c ∈ w, p c = true) →
      (w ++ m).dropWhile p = m.dropWhile p := by
  intro w
  induction w with
  | nil => intro m _; rfl
  | cons c w' ih =>
    intro m h
    rw [List.cons_append, List.dropWhile_cons_of_pos (h c (List.mem_cons_self _ _)),
        ih m (fun d hd => h d (List.mem_cons_of_mem _ hd))]

theorem goodHyphenLine_decomp {x : List Char} (hg : goodHyphenLine x = true)
    (hnl : '\n' ∉ x) : GoodH x := by
  unfold goodHyphenLine at hg
  split at hg
  · rename_i r2 heq
    simp only [Bool.and_eq_true, Bool.not_eq_true'] at hg
    obtain ⟨hw2, hcont⟩ := hg
    have hw2' : r2.takeWhile isWs ≠ [] := fun he => by rw [he] at hw2; simp at hw2
    have hcontne : r2.dropWhile isWs ≠ [] := fun he => by rw [he] at hcont; simp at hcont
    cases hcont' : r2.dropWhile isWs with
    | nil => exact absurd hcont' hcontne
    | cons e rest =>
      refine ⟨x.takeWhile isWs, r2.takeWhile isWs, e, rest, ?_, ?_, hw2', ?_, ?_, hnl⟩
      · conv_lhs => rw [← List.takeWhile_append_dropWhile isWs x]
        rw [heq]
        congr 1
        rw [← hcont', List.takeWhile_append_dropWhile]
      · intro c hc; exact mem_takeWhile_pred hc
      · intro c hc; exact mem_takeWhile_pred hc
      · exact dropWhile_head_false hcont'
  · exact absurd hg (by decide)

theorem goodDigitLine_decomp {x : List Char} (hg : goodDigitLine x = true)
    (hnl : '\n' ∉ x) : GoodD x := by
  unfold goodDigitLine at hg
  split at hg
  · exact absurd hg (by decide)
  · rename_i hdig
    split at hg
    · rename_i r2 heq
      simp only [Bool.and_eq_true, Bool.not_eq_true'] at hg
      obtain ⟨hw2, hcont⟩ := hg
      have hw2' : r2.takeWhile isWs ≠ [] := fun he => by rw [he] at hw2; simp at hw2
      have hcontne : r2.dropWhile isWs ≠ [] := fun he => by rw [he] at hcont; simp at hcont
      cases hcont' : r2.dropWhile isWs with
      | nil => exact absurd hcont' hcontne
      | cons e rest =>
        cases hdd : (x.dropWhile isWs).takeWhile isDigitCh with
        | nil => exact absurd hdd hdig
        | cons d ds =>
          have hq : x.dropWhile isWs = d :: (ds ++ '.' :: r2) := by
            conv_lhs => rw [← List.takeWhile_append_dropWhile isDigitCh (x.dropWhile isWs)]
            rw [hdd, heq]
            rfl
          refine ⟨x.takeWhile isWs, d, ds, r2.takeWhile isWs, e, rest,
            ?_, ?_, dropWhile_head_false hq, ?_, ?_, hw2', ?_, ?_, hnl⟩
          · conv_lhs => rw [← List.takeWhile_append_dropWhile isWs x]
            rw [hq]
            simp only [List.cons_append, List.append_assoc]
            congr 3
            rw [← hcont', List.takeWhile_append_dropWhile]
          · intro c hc; exact mem_takeWhile_pred hc
          · exact mem_takeWhile_pred (hdd ▸ List.mem_cons_self d ds)
          · intro c hc
            exact mem_takeWhile_pred (hdd ▸ List.mem_cons_of_mem d hc)
          · intro c hc; exact mem_takeWhile_pred hc
          · exact dropWhile_head_false hcont'
    · exact absurd hg (by decide)

theorem escChunk_amp : escChunk '&' = "&amp;".data := by decide

theorem escChunk_lt : escChunk '<' = "&lt;".data := by decide

theorem escChunk_gt : escChunk '>' = "&gt;".data := by decide

theorem escChunk_dash : escChunk '-' = ['-'] := by decide

theorem escChunk_dot : escChunk '.' = ['.'] := by decide

theorem escChunk_benign {c : Char} (h1 : c ≠ '&') (h2 : c ≠ '<') (h3 : c ≠ '>') :
    escChunk c = [c] := by
  unfold escChunk
  rw [if_neg h1, if_neg h2, if_neg h3]

theorem escChunk_ws {c : Char} (h : isWs c = true) : escChunk c = [c] := by
  refine escChunk_benign ?_ ?_ ?_ <;>
    (intro he; subst he; exact absurd h (by decide))

theorem escChunk_digit {c : Char} (h : isDigitCh c = true) : escChunk c = [c] := by
  refine escChunk_benign ?_ ?_ ?_ <;>
    (intro he; subst he; exact absurd h (by decide))

theorem escapeOne_benign : ∀ seg m : List Char, (∀ c ∈ seg, escChunk c = [c]) →
    escapeOne (seg ++ m) = seg ++ escapeOne m := by
  intro seg
  induction seg with
  | nil => intro m _; rfl
  | cons c s' ih =>
    intro m h
    rw [List.cons_append,
        show escapeOne (c :: (s' ++ m)) = escChunk c ++ escapeOne (s' ++ m) from rfl,
        h c (List.mem_cons_self _ _),
        ih m (fun d hd => h d (List.mem_cons_of_mem _ hd)), List.singleton_append,
        List.cons_append]

theorem escapeOne_nl_free : ∀ x : List Char, '\n' ∉ x → '\n' ∉ escapeOne x := by
  intro x
  induction x with
  | nil =>
    intro _ hm
    rw [show escapeOne [] = [] from rfl] at hm
    exact absurd hm (List.not_mem_nil _)
  | cons c x' ih =>
    intro hnl hm
    rcases List.mem_append.mp hm with h1 | h1
    · exact escChunk_no_nl (fun he => hnl (he ▸ List.mem_cons_self _ _)) h1
    · exact ih (fun hq => hnl (List.mem_cons_of_mem _ hq)) h1

theorem escChunk_shape {e : Char} (he : isWs e = false) :
    ∃ e2 t2, escChunk e = e2 :: t2 ∧ isWs e2 = false := by
  by_cases h1 : e = '&'
  · exact ⟨'&', "amp;".data, by rw [h1]; decide, by decide⟩
  · by_cases h2 : e = '<'
    · exact ⟨'&', "lt;".data, by rw [h2]; decide, by decide⟩
    · by_cases h3 : e = '>'
      · exact ⟨'&', "gt;".data, by rw [h3]; decide, by decide⟩
      · exact ⟨e, [], escChunk_benign h1 h2 h3, he⟩

theorem GoodH_escapeOne {x : List Char} (h : GoodH x) : GoodH (escapeOne x) := by
  obtain ⟨w, w2, e, rest, heq, hw, hw2ne, hw2, he, hnl⟩ := h
  obtain ⟨e2, t2, hchunk, he2⟩ := escChunk_shape he
  refine ⟨w, w2, e2, t2 ++ escapeOne rest, ?_, hw, hw2ne, hw2, he2, ?_⟩
  · rw [heq, escapeOne_benign w _ (fun c hc => escChunk_ws (hw c hc)),
        show escapeOne ('-' :: (w2 ++ e :: rest))
          = escChunk '-' ++ escapeOne (w2 ++ e :: rest) from rfl,
        escChunk_dash,
        escapeOne_benign w2 _ (fun c hc => escChunk_ws (hw2 c hc)),
        show escapeOne (e :: rest) = escChunk e ++ escapeOne rest from rfl,
        hchunk]
    rfl
  · exact heq ▸ escapeOne_nl_free x hnl

theorem GoodD_escapeOne {x : List Char} (h : GoodD x) : GoodD (escapeOne x) := by
  obtain ⟨w, d, ds, w2, e, rest, heq, hw, hdws, hdig, hds, hw2ne, hw2, he, hnl⟩ := h
  obtain ⟨e2, t2, hchunk, he2⟩ := escChunk_shape he
  refine ⟨w, d, ds, w2, e2, t2 ++ escapeOne rest, ?_, hw, hdws, hdig, hds,
    hw2ne, hw2, he2, ?_⟩
  · rw [heq, List.append_assoc, escapeOne_benign w _ (fun c hc => escChunk_ws (hw c hc)),
        show escapeOne ((d :: ds) ++ '.' :: (w2 ++ e :: rest))
          = escChunk d ++ escapeOne (ds ++ '.' :: (w2 ++ e :: rest)) from rfl,
        escChunk_digit hdig,
        escapeOne_benign ds _ (fun c hc => escChunk_digit (hds c hc)),
        show escapeOne ('.' :: (w2 ++ e :: rest))
          = escChunk '.' ++ escapeOne (w2 ++ e :: rest) from rfl,
        escChunk_dot,
        escapeOne_benign w2 _ (fun c hc => escChunk_ws (hw2 c hc)),
        show escapeOne (e :: rest) = escChunk e ++ escapeOne rest from rfl,
        hchunk]
    simp [List.append_assoc]
  · exact heq ▸ escapeOne_nl_free x hnl

theorem replaceBold_head_nonws {e : Char} {rest : List Char}
    (he : isWs e = false) :
    ∃ e2 t2, replaceBold (e :: rest) = e2 :: t2 ∧ isWs e2 = false := by
  by_cases hc : e = '*'
  · subst hc
    match rest with
    | [] => exact ⟨'*', [], replaceBold_star_one, by decide⟩
    | d :: rest' =>
      by_cases hd : d = '*'
      · subst hd
        cases hss : splitAtDoubleStar rest' with
        | some p =>
          obtain ⟨inner, rest2⟩ := p
          refine ⟨'<', "strong>".data ++ inner ++ "</strong>".data ++ replaceBold rest2,
            ?_, by decide⟩
          rw [replaceBold_ss_some hss]
          rfl
        | none =>
          exact ⟨'*', replaceBold ('*' :: rest'), replaceBold_ss_none hss, by decide⟩
      · exact ⟨'*', replaceBold (d :: rest'), replaceBold_star_cons_ne _ hd, by decide⟩
  · exact ⟨e, replaceBold rest, replaceBold_cons_ne _ hc, he⟩

theorem replaceItalic_head_nonws {e : Char} {rest : List Char}
    (he : isWs e = false) :
    ∃ e2 t2, replaceItalic (e :: rest) = e2 :: t2 ∧ isWs e2 = false := by
  by_cases hc : e = '*'
  · subst hc
    cases hss : splitAtStar rest with
    | some p =>
      obtain ⟨inner, rest2⟩ := p
      refine ⟨'<', "em>".data ++ inner ++ "</em>".data ++ replaceItalic rest2,
        ?_, by decide⟩
      rw [replaceItalic_star_some hss]
      rfl
    | none =>
      exact ⟨'*', replaceItalic rest, replaceItalic_star_none hss, by decide⟩
  · exact ⟨e, replaceItalic rest, replaceItalic_cons_ne _ hc, he⟩

theorem ws_not_star {c : Char} (h : isWs c = true) : c ≠ '*' :=
  fun he => absurd h (by rw [he]; decide)

theorem digit_not_star {c : Char} (h : isDigitCh c = true) : c ≠ '*' :=
  fun he => absurd h (by rw [he]; decide)

theorem GoodH_replaceBold {x : List Char} (h : GoodH x) : GoodH (replaceBold x) := by
  obtain ⟨w, w2, e, rest, heq, hw, hw2ne, hw2, he, hnl⟩ := h
  obtain ⟨e2, t2, hstep, he2⟩ := @replaceBold_head_nonws e rest he
  have hstarfree : ∀ c ∈ w ++ '-' :: w2, c ≠ '*' := by
    intro c hc
    rcases List.mem_append.mp hc with h1 | h1
    · exact ws_not_star (hw c h1)
    · rcases List.mem_cons.mp h1 with h2 | h2
      · rw [h2]; decide
      · exact ws_not_star (hw2 c h2)
  refine ⟨w, w2, e2, t2, ?_, hw, hw2ne, hw2, he2, ?_⟩
  · rw [heq, show w ++ '-' :: (w2 ++ e :: rest) = (w ++ '-' :: w2) ++ e :: rest by simp,
        replaceBold_nostar _ _ hstarfree, hstep]
    simp
  · exact heq ▸ replaceBold_nl_free x.length x le_rfl (heq ▸ hnl)

theorem GoodH_replaceItalic {x : List Char} (h : GoodH x) : GoodH (replaceItalic x) := by
  obtain ⟨w, w2, e, rest, heq, hw, hw2ne, hw2, he, hnl⟩ := h
  obtain ⟨e2, t2, hstep, he2⟩ := @replaceItalic_head_nonws e rest he
  have hstarfree : ∀ c ∈ w ++ '-' :: w2, c ≠ '*' := by
    intro c hc
    rcases List.mem_append.mp hc with h1 | h1
    · exact ws_not_star (hw c h1)
    · rcases List.mem_cons.mp h1 with h2 | h2
      · rw [h2]; decide
      · exact ws_not_star (hw2 c h2)
  refine ⟨w, w2, e2, t2, ?_, hw, hw2ne, hw2, he2, ?_⟩
  · rw [heq, show w ++ '-' :: (w2 ++ e :: rest) = (w ++ '-' :: w2) ++ e :: rest by simp,
        replaceItalic_nostar _ _ hstarfree, hstep]
    simp
  · exact heq ▸ replaceItalic_nl_free x.length x le_rfl (heq ▸ hnl)

theorem GoodD_replaceBold {x : List Char} (h : GoodD x) : GoodD (replaceBold x) := by
  obtain ⟨w, d, ds, w2, e, rest, heq, hw, hdws, hdig, hds, hw2ne, hw2, he, hnl⟩ := h
  obtain ⟨e2, t2, hstep, he2⟩ := @replaceBold_head_nonws e rest he
  have hstarfree : ∀ c ∈ w ++ (d :: ds) ++ '.' :: w2, c ≠ '*' := by
    intro c hc
    rcases List.mem_append.mp hc with h1 | h1
    · rcases List.mem_append.mp h1 with h2 | h2
      · exact ws_not_star (hw c h2)
      · rcases List.mem_cons.mp h2 with h3 | h3
        · exact h3 ▸ digit_not_star hdig
        · exact digit_not_star (hds c h3)
    · rcases List.mem_cons.mp h1 with h2 | h2
      · rw [h2]; decide
      · exact ws_not_star (hw2 c h2)
  refine ⟨w, d, ds, w2, e2, t2, ?_, hw, hdws, hdig, hds, hw2ne, hw2, he2, ?_⟩
  · rw [heq, show w ++ (d :: ds) ++ '.' :: (w2 ++ e :: rest)
          = (w ++ (d :: ds) ++ '.' :: w2) ++ e :: rest by simp,
        replaceBold_nostar _ _ hstarfree, hstep]
    simp
  · exact heq ▸ replaceBold_nl_free x.length x le_rfl (heq ▸ hnl)

theorem GoodD_replaceItalic {x : List Char} (h : GoodD x) : GoodD (replaceItalic x) := by
  obtain ⟨w, d, ds, w2, e, rest, heq, hw, hdws, hdig, hds, hw2ne, hw2, he, hnl⟩ := h
  obtain ⟨e2, t2, hstep, he2⟩ := @replaceItalic_head_nonws e rest he
  have hstarfree : ∀ c ∈ w ++ (d :: ds) ++ '.' :: w2, c ≠ '*' := by
    intro c hc
    rcases List.mem_append.mp hc with h1 | h1
    · rcases List.mem_append.mp h1 with h2 | h2
      · exact ws_not_star (hw c h2)
      · rcases List.mem_cons.mp h2 with h3 | h3
        · exact h3 ▸ digit_not_star hdig
        · exact digit_not_star (hds c h3)
    · rcases List.mem_cons.mp h1 with h2 | h2
      · rw [h2]; decide
      · exact ws_not_star (hw2 c h2)
  refine ⟨w, d, ds, w2, e2, t2, ?_, hw, hdws, hdig, hds, hw2ne, hw2, he2, ?_⟩
  · rw [heq, show w ++ (d :: ds) ++ '.' :: (w2 ++ e :: rest)
          = (w ++ (d :: ds) ++ '.' :: w2) ++ e :: rest by simp,
        replaceItalic_nostar _ _ hstarfree, hstep]
    simp
  · exact heq ▸ replaceItalic_nl_free x.length x le_rfl (heq ▸ hnl)

/-! List-marker matches on a good line followed by nothing or by a
newline: the match consumes exactly the line and captures its content. -/

theorem tryULMatch_ws_app {w m : List Char} (hw : ∀ c ∈ w, isWs c = true) :
    tryULMatch (w ++ m) = tryULMatch m := by
  unfold tryULMatch
  rw [dropWhile_pos_app isWs w m hw]

theorem tryOLMatch_ws_app {w m : List Char} (hw : ∀ c ∈ w, isWs c = true) :
    tryOLMatch (w ++ m) = tryOLMatch m := by
  unfold tryOLMatch
  rw [dropWhile_pos_app isWs w m hw]

theorem tryULMatch_dash_cons (R : List Char) :
    tryULMatch ('-' :: R) = if R.takeWhile isWs = [] then none
      else some ((R.dropWhile isWs).takeWhile (· != '\n'),
                 (R.dropWhile isWs).dropWhile (· != '\n')) := by
  unfold tryULMatch
  rw [List.dropWhile_cons_of_neg (by decide)]
  rfl

theorem takeWhile_nl_z {z : List Char} (hz : z = [] ∨ ∃ M, z = '\n' :: M) :
    z.takeWhile (· != '\n') = [] := by
  rcases hz with h | ⟨M, h⟩ <;> subst h
  · rfl
  · rw [List.takeWhile_cons_of_neg (by decide)]

theorem dropWhile_nl_z {z : List Char} (hz : z = [] ∨ ∃ M, z = '\n' :: M) :
    z.dropWhile (· != '\n') = z := by
  rcases hz with h | ⟨M, h⟩ <;> subst h
  · rfl
  · rw [List.dropWhile_cons_of_neg (by decide)]

theorem wsContentSplit {w2 rest z : List Char} {e : Char}
    (hw2 : ∀ c ∈ w2, isWs c = true) (he : isWs e = false)
    (hnler : '\n' ∉ e :: rest) (hz : z = [] ∨ ∃ M, z = '\n' :: M) :
    (w2 ++ e :: (rest ++ z)).takeWhile isWs = w2 ∧
    (w2 ++ e :: (rest ++ z)).dropWhile isWs = e :: (rest ++ z) ∧
    (e :: (rest ++ z)).takeWhile (· != '\n') = e :: rest ∧
    (e :: (rest ++ z)).dropWhile (· != '\n') = z := by
  have hall : ∀ c ∈ e :: rest, (c != '\n') = true := by
    intro c hc
    simp only [bne_iff_ne, ne_eq]
    exact fun he2 => hnler (he2 ▸ hc)
  have hsplit : e :: (rest ++ z) = (e :: rest) ++ z := rfl
  refine ⟨?_, ?_, ?_, ?_⟩
  · rw [takeWhile_pos_app isWs w2 _ hw2,
        List.takeWhile_cons_of_neg (by simp [he]), List.append_nil]
  · rw [dropWhile_pos_app isWs w2 _ hw2,
        List.dropWhile_cons_of_neg (by simp [he])]
  · rw [hsplit, takeWhile_pos_app _ (e :: rest) z hall, takeWhile_nl_z hz,
        List.append_nil]
  · rw [hsplit, dropWhile_pos_app _ (e :: rest) z hall, dropWhile_nl_z hz]

theorem tryULMatch_GoodH {x : List Char} (h : GoodH x) (z : List Char)
    (hz : z = [] ∨ ∃ M, z = '\n' :: M) :
    ∃ cap, tryULMatch (x ++ z) = some (cap, z) ∧ '\n' ∉ cap := by
  obtain ⟨w, w2, e, rest, heq, hw, hw2ne, hw2, he, hnl⟩ := h
  have hnler : '\n' ∉ e :: rest := fun hm => hnl (by
    rw [heq]
    exact List.mem_append_right _
      (List.mem_cons_of_mem _ (List.mem_append_right _ hm)))
  obtain ⟨t1, t2, t3, t4⟩ := wsContentSplit hw2 he hnler hz
  refine ⟨e :: rest, ?_, hnler⟩
  have heq2 : x ++ z = w ++ ('-' :: (w2 ++ e :: (rest ++ z))) := by
    rw [heq]; simp
  rw [heq2, tryULMatch_ws_app hw, tryULMatch_dash_cons,
      if_neg (by rw [t1]; exact hw2ne), t2, t3, t4]

theorem tryULMatch_GoodD {x : List Char} (h : GoodD x) (z : List Char) :
    tryULMatch (x ++ z) = none := by
  obtain ⟨w, d, ds, w2, e, rest, heq, hw, hdws, hdig, hds, hw2ne, hw2, he, hnl⟩ := h
  have heq2 : x ++ z = w ++ (d :: (ds ++ '.' :: (w2 ++ e :: (rest ++ z)))) := by
    rw [heq]; simp
  rw [heq2, tryULMatch_ws_app hw]
  exact tryULMatch_none_head hdws (fun he2 => absurd hdig (by rw [he2]; decide))

theorem tryOLMatch_GoodD {x : List Char} (h : GoodD x) (z : List Char)
    (hz : z = [] ∨ ∃ M, z = '\n' :: M) :
    ∃ cap, tryOLMatch (x ++ z) = some (cap, z) ∧ '\n' ∉ cap := by
  obtain ⟨w, d, ds, w2, e, rest, heq, hw, hdws, hdig, hds, hw2ne, hw2, he, hnl⟩ := h
  have hnler : '\n' ∉ e :: rest := fun hm => hnl (by
    rw [heq]
    exact List.mem_append_right _
      (List.mem_cons_of_mem _ (List.mem_append_right _ hm)))
  obtain ⟨t1, t2, t3, t4⟩ := wsContentSplit hw2 he hnler hz
  refine ⟨e :: rest, ?_, hnler⟩
  have heq2 : x ++ z = w ++ ((d :: ds) ++ '.' :: (w2 ++ e :: (rest ++ z))) := by
    rw [heq]; simp
  rw [heq2, tryOLMatch_ws_app hw]
  have hdrop : ((d :: ds) ++ '.' :: (w2 ++ e :: (rest ++ z))).dropWhile isWs
      = (d :: ds) ++ '.' :: (w2 ++ e :: (rest ++ z)) := by
    rw [List.cons_append, List.dropWhile_cons_of_neg (by simp [hdws])]
  have htake : ((d :: ds) ++ '.' :: (w2 ++ e :: (rest ++ z))).takeWhile isDigitCh
      = d :: ds := by
    rw [List.cons_append, List.takeWhile_cons_of_pos hdig,
        takeWhile_pos_app isDigitCh ds _ hds,
        List.takeWhile_cons_of_neg (by decide), List.append_nil]
  have hdropD : ((d :: ds) ++ '.' :: (w2 ++ e :: (rest ++ z))).dropWhile isDigitCh
      = '.' :: (w2 ++ e :: (rest ++ z)) := by
    rw [List.cons_append, List.dropWhile_cons_of_pos hdig,
        dropWhile_pos_app isDigitCh ds _ hds,
        List.dropWhile_cons_of_neg (by decide)]
  unfold tryOLMatch
  rw [hdrop, htake, hdropD]
  rw [if_neg (by simp)]
  show (if (w2 ++ e :: (rest ++ z)).takeWhile isWs = [] then none
    else some (((w2 ++ e :: (rest ++ z)).dropWhile isWs).takeWhile (· != '\n'),
               ((w2 ++ e :: (rest ++ z)).dropWhile isWs).dropWhile (· != '\n')))
    = some (e :: rest, z)
  rw [if_neg (by rw [t1]; exact hw2ne), t2, t3, t4]

theorem tryOLMatch_wrapped (cap z : List Char) :
    tryOLMatch (wrapLi cap ++ z) = none := by
  rw [show wrapLi cap ++ z = '<' :: ("li>".data ++ cap ++ "</li>".data ++ z) by
        simp [wrapLi]]
  exact tryOLMatch_none_head (by decide) (by decide)

theorem GoodH_ne_nil {x : List Char} (h : GoodH x) : x ≠ [] := by
  obtain ⟨w, w2, e, rest, heq, _⟩ := h
  rw [heq]; simp

theorem GoodD_ne_nil {x : List Char} (h : GoodD x) : x ≠ [] := by
  obtain ⟨w, d, ds, w2, e, rest, heq, _⟩ := h
  rw [heq]; simp

theorem GoodD_nl_free {x : List Char} (h : GoodD x) : '\n' ∉ x := by
  obtain ⟨w, d, ds, w2, e, rest, heq, hw, hdws, hdig, hds, hw2ne, hw2, he, hnl⟩ := h
  exact hnl

theorem wrapLi_nl_free {cap : List Char} (h : '\n' ∉ cap) : '\n' ∉ wrapLi cap := by
  intro hm
  simp only [wrapLi, List.mem_append] at hm
  rcases hm with (h1 | h1) | h1
  · revert h1; decide
  · exact h h1
  · revert h1; decide

theorem wrapLi_ne_nil (cap : List Char) : wrapLi cap ≠ [] := by
  simp [wrapLi]

/-- A line the unordered-list scan cannot match anywhere is copied
verbatim, both at the end of the text and before a newline. -/
theorem scanUL_copy_line {x : List Char} (hne : x ≠ []) (hnl : '\n' ∉ x)
    (hnone : ∀ z, tryULMatch (x ++ z) = none) :
    (∀ J, scanUL true (x ++ '\n' :: J) = x ++ '\n' :: scanUL true J) ∧
    scanUL true x = x := by
  obtain ⟨c, x', rfl⟩ := List.exists_cons_of_ne_nil hne
  have hc : c ≠ '\n' := fun he => hnl (he ▸ List.mem_cons_self _ _)
  have hx' : '\n' ∉ x' := fun hm => hnl (List.mem_cons_of_mem _ hm)
  constructor
  · intro J
    have h1 := hnone ('\n' :: J)
    rw [List.cons_append] at h1
    rw [List.cons_append, scanUL_true_none h1, decide_eq_false hc,
        scanUL_false_chunk x' _ hx', scanUL_false_cons,
        show decide (('\n' : Char) = '\n') = true from rfl]
    rfl
  · have h1 := hnone []
    rw [List.append_nil] at h1
    have h2 := scanUL_false_chunk x' [] hx'
    rw [List.append_nil, scanUL_nil, List.append_nil] at h2
    rw [scanUL_true_none h1, decide_eq_false hc, h2]

theorem scanOL_copy_line {x : List Char} (hne : x ≠ []) (hnl : '\n' ∉ x)
    (hnone : ∀ z, tryOLMatch (x ++ z) = none) :
    (∀ J, scanOL true (x ++ '\n' :: J) = x ++ '\n' :: scanOL true J) ∧
    scanOL true x = x := by
  obtain ⟨c, x', rfl⟩ := List.exists_cons_of_ne_nil hne
  have hc : c ≠ '\n' := fun he => hnl (he ▸ List.mem_cons_self _ _)
  have hx' : '\n' ∉ x' := fun hm => hnl (List.mem_cons_of_mem _ hm)
  constructor
  · intro J
    have h1 := hnone ('\n' :: J)
    rw [List.cons_append] at h1
    rw [List.cons_append, scanOL_true_none h1, decide_eq_false hc,
        scanOL_false_chunk x' _ hx', scanOL_false_cons,
        show decide (('\n' : Char) = '\n') = true from rfl]
    rfl
  · have h1 := hnone []
    rw [List.append_nil] at h1
    have h2 := scanOL_false_chunk x' [] hx'
    rw [List.append_nil, scanOL_nil, List.append_nil] at h2
    rw [scanOL_true_none h1, decide_eq_false hc, h2]

/-- First list pass over a text whose lines are all good marker lines:
hyphen lines become `<li>…</li>`, digit lines are copied. -/
theorem scanUL_goodLines : ∀ lines : List (List Char), lines ≠ [] →
    (∀ x ∈ lines, GoodH x ∨ GoodD x) →
    ∃ lines2 : List (List Char), lines2.length = lines.length ∧
      scanUL true (joinNl lines) = joinNl lines2 ∧
      ∀ y ∈ lines2, (∃ cap, y = wrapLi cap ∧ '\n' ∉ cap) ∨ GoodD y := by
  intro lines
  induction lines with
  | nil => intro h; exact absurd rfl h
  | cons x rest ih =>
    intro _ hgood
    rcases hgood x (List.mem_cons_self _ _) with hH | hD
    · obtain ⟨c, x', hx⟩ := List.exists_cons_of_ne_nil (GoodH_ne_nil hH)
      cases rest with
      | nil =>
        obtain ⟨cap, hma, hcapnl⟩ := tryULMatch_GoodH hH [] (Or.inl rfl)
        rw [List.append_nil, hx] at hma
        refine ⟨[wrapLi cap], rfl, ?_, ?_⟩
        · rw [show joinNl [x] = x from rfl, hx, scanUL_true_some hma, scanUL_nil,
              show joinNl [wrapLi cap] = wrapLi cap from rfl]
          simp [wrapLi]
        · intro y hy
          rw [List.mem_singleton] at hy
          exact Or.inl ⟨cap, hy, hcapnl⟩
      | cons y t =>
        obtain ⟨cap, hma, hcapnl⟩ :=
          tryULMatch_GoodH hH ('\n' :: joinNl (y :: t)) (Or.inr ⟨_, rfl⟩)
        rw [hx, List.cons_append] at hma
        obtain ⟨lines2', hlen', hscan', hprop'⟩ :=
          ih (by simp) (fun z hz => hgood z (List.mem_cons_of_mem _ hz))
        cases lines2' with
        | nil => rw [List.length_nil] at hlen'; simp at hlen'
        | cons l2 t2 =>
          refine ⟨wrapLi cap :: l2 :: t2, ?_, ?_, ?_⟩
          · rw [List.length_cons, hlen']; rfl
          · rw [joinNl_cons_cons, hx, List.cons_append, scanUL_true_some hma,
                scanUL_false_cons,
                show decide (('\n' : Char) = '\n') = true from rfl,
                hscan', joinNl_cons_cons]
            simp [wrapLi]
          · intro y2 hy2
            rcases List.mem_cons.mp hy2 with h1 | h1
            · exact Or.inl ⟨cap, h1, hcapnl⟩
            · exact hprop' y2 h1
    · have hnone := tryULMatch_GoodD hD
      have hnl := GoodD_nl_free hD
      have hne := GoodD_ne_nil hD
      cases rest with
      | nil =>
        refine ⟨[x], rfl, ?_, ?_⟩
        · rw [show joinNl [x] = x from rfl, (scanUL_copy_line hne hnl hnone).2]
        · intro y hy
          rw [List.mem_singleton] at hy
          exact Or.inr (hy ▸ hD)
      | cons y t =>
        obtain ⟨lines2', hlen', hscan', hprop'⟩ :=
          ih (by simp) (fun z hz => hgood z (List.mem_cons_of_mem _ hz))
        cases lines2' with
        | nil => rw [List.length_nil] at hlen'; simp at hlen'
        | cons l2 t2 =>
          refine ⟨x :: l2 :: t2, ?_, ?_, ?_⟩
          · rw [List.length_cons, hlen']; rfl
          · rw [joinNl_cons_cons, (scanUL_copy_line hne hnl hnone).1, hscan',
                joinNl_cons_cons]
          · intro y2 hy2
            rcases List.mem_cons.mp hy2 with h1 | h1
            · exact Or.inr (h1 ▸ hD)
            · exact hprop' y2 h1

/-- Second list pass: remaining digit lines become `<li>…</li>`, already
wrapped lines are copied, so afterwards every line is a wrapped capture. -/
theorem scanOL_wrappedLines : ∀ lines : List (List Char), lines ≠ [] →
    (∀ x ∈ lines, (∃ cap, x = wrapLi cap ∧ '\n' ∉ cap) ∨ GoodD x) →
    ∃ caps : List (List Char), caps.length = lines.length ∧
      scanOL true (joinNl lines) = joinNl (caps.map wrapLi) ∧
      ∀ c ∈ caps, '\n' ∉ c := by
  intro lines
  induction lines with
  | nil => intro h; exact absurd rfl h
  | cons x rest ih =>
    intro _ hgood
    rcases hgood x (List.mem_cons_self _ _) with ⟨cap, hxw, hcapnl⟩ | hD
    · have hnone : ∀ z, tryOLMatch (x ++ z) = none := fun z => by
        rw [hxw]; exact tryOLMatch_wrapped cap z
      have hnl : '\n' ∉ x := hxw ▸ wrapLi_nl_free hcapnl
      have hne : x ≠ [] := hxw ▸ wrapLi_ne_nil cap
      cases rest with
      | nil =>
        refine ⟨[cap], rfl, ?_, ?_⟩
        · rw [show joinNl [x] = x from rfl, (scanOL_copy_line hne hnl hnone).2,
              List.map_cons, List.map_nil, show joinNl [wrapLi cap] = wrapLi cap from rfl,
              hxw]
        · intro c hc
          rw [List.mem_singleton] at hc
          exact hc ▸ hcapnl
      | cons y t =>
        obtain ⟨caps', hlen', hscan', hprop'⟩ :=
          ih (by simp) (fun z hz => hgood z (List.mem_cons_of_mem _ hz))
        cases caps' with
        | nil => rw [List.length_nil] at hlen'; simp at hlen'
        | cons cp2 cps2 =>
          refine ⟨cap :: cp2 :: cps2, ?_, ?_, ?_⟩
          · rw [List.length_cons, hlen']; rfl
          · rw [joinNl_cons_cons, (scanOL_copy_line hne hnl hnone).1, hscan',
                List.map_cons, List.map_cons, List.map_cons, joinNl_cons_cons, hxw]
          · intro c hc
            rcases List.mem_cons.mp hc with h1 | h1
            · exact h1 ▸ hcapnl
            · exact hprop' c h1
    · obtain ⟨c, x', hx⟩ := List.exists_cons_of_ne_nil (GoodD_ne_nil hD)
      cases rest with
      | nil =>
        obtain ⟨cap, hma, hcapnl⟩ := tryOLMatch_GoodD hD [] (Or.inl rfl)
        rw [List.append_nil, hx] at hma
        refine ⟨[cap], rfl, ?_, ?_⟩
        · rw [show joinNl [x] = x from rfl, hx, scanOL_true_some hma, scanOL_nil,
              List.map_cons, List.map_nil, show joinNl [wrapLi cap] = wrapLi cap from rfl]
          simp [wrapLi]
        · intro c2 hc2
          rw [List.mem_singleton] at hc2
          exact hc2 ▸ hcapnl
      | cons y t =>
        obtain ⟨cap, hma, hcapnl⟩ :=
          tryOLMatch_GoodD hD ('\n' :: joinNl (y :: t)) (Or.inr ⟨_, rfl⟩)
        rw [hx, List.cons_append] at hma
        obtain ⟨caps', hlen', hscan', hprop'⟩ :=
          ih (by simp) (fun z hz => hgood z (List.mem_cons_of_mem _ hz))
        cases caps' with
        | nil => rw [List.length_nil] at hlen'; simp at hlen'
        | cons cp2 cps2 =>
          refine ⟨cap :: cp2 :: cps2, ?_, ?_, ?_⟩
          · rw [List.length_cons, hlen']; rfl
          · rw [joinNl_cons_cons, hx, List.cons_append, scanOL_true_some hma,
                scanOL_false_cons,
                show decide (('\n' : Char) = '\n') = true from rfl,
                hscan', List.map_cons, List.map_cons, List.map_cons, joinNl_cons_cons]
            simp [wrapLi]
          · intro c2 hc2
            rcases List.mem_cons.mp hc2 with h1 | h1
            · exact h1 ▸ hcapnl
            · exact hprop' c2 h1

theorem containsLi_wrapLi (cap : List Char) : containsLi (wrapLi cap) = true := by
  rw [show wrapLi cap = '<' :: 'l' :: 'i' :: '>' :: (cap ++ "</li>".data) by
        simp [wrapLi]]
  rfl

theorem processLines_wrapped_aux : ∀ caps : List (List Char),
    processLines (caps.map wrapLi) true = (caps.map wrapLi).flatten ++ "</ul>".data := by
  intro caps
  induction caps with
  | nil => rfl
  | cons c cs ih =>
    rw [List.map_cons,
        show processLines (wrapLi c :: cs.map wrapLi) true
          = if containsLi (wrapLi c) then
              (if (true : Bool) then wrapLi c else "<ul>".data ++ wrapLi c)
                ++ processLines (cs.map wrapLi) true
            else
              (if (true : Bool) then "</ul>".data else []) ++
              (if hasContent (wrapLi c) then "<p>".data ++ wrapLi c ++ "</p>".data else [])
                ++ processLines (cs.map wrapLi) false from rfl,
        containsLi_wrapLi, if_pos rfl, if_pos rfl, ih]
    simp

theorem processLines_wrapped (c0 : List Char) (caps : List (List Char)) :
    processLines ((c0 :: caps).map wrapLi) false
      = "<ul>".data ++ ((c0 :: caps).map wrapLi).flatten ++ "</ul>".data := by
  rw [List.map_cons,
      show processLines (wrapLi c0 :: caps.map wrapLi) false
        = if containsLi (wrapLi c0) then
            (if (false : Bool) then wrapLi c0 else "<ul>".data ++ wrapLi c0)
              ++ processLines (caps.map wrapLi) true
          else
            (if (false : Bool) then "</ul>".data else []) ++
            (if hasContent (wrapLi c0) then "<p>".data ++ wrapLi c0 ++ "</p>".data else [])
              ++ processLines (caps.map wrapLi) false from rfl,
      containsLi_wrapLi, if_pos rfl, processLines_wrapped_aux]
  simp

/-- C5 (amended): the original claim fails in two ways.  A marker line
without visible item text is absorbed into the following line's match
(`c5_blank_item_counterexample`), and a line containing a `\r` (or
U+2028 / U+2029) yields one `<li>` per regex line terminator, not per
`split('\n')` line — on `"- a\r- b"` the source's `(.*)` stops at the
`\r`, `$` matches before it and the `m`-flag `^` re-anchors after it, so
the program emits two items for that single line.  Hence the amended
statement: for every input free of the non-`\n` LineTerminator
characters (`noAltTerm`, the domain on which this embedding agrees with
the source's regexes) whose lines each carry a list marker followed by
whitespace and at least one visible character, the renderer emits
exactly ONE `<ul>…</ul>` grouping holding one `<li>` element per input
line — never one grouping per line. -/
theorem c5_single_grouping (s : String) (halt : noAltTerm s.data)
    (hgood : ∀ line ∈ splitOnNl s.data, goodMarkerLine line = true) :
    ∃ caps : List (List Char),
      caps.length = (splitOnNl s.data).length ∧
      (parseMarkdown s).data
        = "<ul>".data ++ (caps.map wrapLi).flatten ++ "</ul>".data := by
  have hsne : s ≠ "" := by
    intro he
    have h0 := hgood [] (by rw [he]; exact List.mem_cons_self _ _)
    exact absurd h0 (by decide)
  -- every source line is a good hyphen or digit line
  have hlines0 : ∀ line ∈ splitOnNl s.data, GoodH line ∨ GoodD line := by
    intro line hline
    have hnl := splitOnNl_no_nl s.data line hline
    rcases Bool.or_eq_true _ _ |>.mp (hgood line hline) with h | h
    · exact Or.inl (goodHyphenLine_decomp h hnl)
    · exact Or.inr (goodDigitLine_decomp h hnl)
  -- lines of the text after escaping and emphasis
  set l3 := replaceItalic (replaceBold (escapeHtml s.data)) with hl3
  have hsplit3 : splitOnNl l3
      = (splitOnNl s.data).map (fun y => replaceItalic (replaceBold (escapeOne y))) := by
    rw [hl3, escapeHtml_eq_one,
        splitOnNl_replaceItalic (replaceBold (escapeOne s.data)).length _ le_rfl,
        splitOnNl_replaceBold (escapeOne s.data).length _ le_rfl,
        splitOnNl_escapeOne, List.map_map, List.map_map]
    rfl
  have hlines3 : ∀ y ∈ splitOnNl l3, GoodH y ∨ GoodD y := by
    intro y hy
    rw [hsplit3] at hy
    obtain ⟨line, hline, rfl⟩ := List.mem_map.mp hy
    rcases hlines0 line hline with h | h
    · exact Or.inl (GoodH_replaceItalic (GoodH_replaceBold (GoodH_escapeOne h)))
    · exact Or.inr (GoodD_replaceItalic (GoodD_replaceBold (GoodD_escapeOne h)))
  have hne3 : splitOnNl l3 ≠ [] := by
    obtain ⟨h, t, hht⟩ := splitOnNl_shape l3
    rw [hht]; simp
  obtain ⟨lines2, hlen2, hscan2, hprop2⟩ := scanUL_goodLines (splitOnNl l3) hne3 hlines3
  have hne2 : lines2 ≠ [] := by
    intro he
    rw [he, List.length_nil] at hlen2
    obtain ⟨h, t, hht⟩ := splitOnNl_shape l3
    rw [hht] at hlen2
    simp at hlen2
  obtain ⟨caps, hlenc, hscan3, hcapnl⟩ := scanOL_wrappedLines lines2 hne2 hprop2
  have hcne : caps ≠ [] := by
    intro he
    rw [he, List.length_nil] at hlenc
    exact hne2 (List.eq_nil_of_length_eq_zero hlenc.symm)
  obtain ⟨c0, caps', rfl⟩ := List.exists_cons_of_ne_nil hcne
  refine ⟨c0 :: caps', ?_, ?_⟩
  · rw [hlenc, hlen2, hsplit3, List.length_map]
  · rw [show (parseMarkdown s).data = mdPipeline s.data by
          rw [parseMarkdown, if_neg hsne]]
    unfold mdPipeline
    rw [← hl3, show scanUL true l3 = scanUL true (joinNl (splitOnNl l3)) by
          rw [joinNl_splitOnNl],
        hscan2, hscan3,
        splitOnNl_joinNl ((c0 :: caps').map wrapLi) (by simp)
          (fun y hy => by
            obtain ⟨cp, hcp, rfl⟩ := List.mem_map.mp hy
            exact wrapLi_nl_free (hcapnl cp hcp)),
        processLines_wrapped]

/-- Witness: the spec's own example `"- one\n- two"` satisfies both
hypotheses, and the theorem applies to it. -/
theorem c5_single_grouping_witness :
    noAltTerm ("- one\n- two".data) ∧
    (∀ line ∈ splitOnNl ("- one\n- two".data), goodMarkerLine line = true) ∧
    ∃ caps : List (List Char),
      caps.length = (splitOnNl ("- one\n- two".data)).length ∧
      (parseMarkdown "- one\n- two").data
        = "<ul>".data ++ (caps.map wrapLi).flatten ++ "</ul>".data :=
  ⟨by decide, by decide, c5_single_grouping "- one\n- two" (by decide) (by decide)⟩

end Chatbot

